import Mathlib

/-!
# Verification of the humaproto schema-derivation engine

A shallow embedding of `registry.go` and `json_format.go`
(package `humaproto`): the schema registry (`protoJSONHumaRegistry.Schema`,
`SchemaFromRef`, `TypeFromRef`) and the type walker (`SchemaFromType`,
`schemaFromType`, `getFields`, `boolTag`, `protobufNameRegex`).

Go's `reflect.Type` values are modelled by the inductive `Ty`; struct types
are nominal (`Ty.strct name`) and their structural metadata (fields, methods,
optional-interface capabilities) lives in an environment carried by the
registry configuration `Cfg`.  Go maps are modelled as association lists with
first-match lookup; map update conses a new entry (shadowing).  Panics are
modelled by `Res.fatal`, and recursion is bounded by explicit fuel
(`Res.fuelOut` = fuel exhausted); termination statements say that enough fuel
never yields `Res.fuelOut`.  Strings are ASCII in all inputs of interest, so
Go's byte-oriented string operations are modelled by `Char`-list operations.
-/

set_option autoImplicit false

namespace HumaProto

/-- Result of a derivation step: a value, a panic (Go `panic`), or fuel
exhaustion (used to express termination of the Go recursion). -/
inductive Res (α : Type) where
  | ok (a : α)
  | fatal (msg : String)
  | fuelOut
deriving DecidableEq, Repr

instance : Monad Res where
  pure := Res.ok
  bind
    | Res.ok a, f => f a
    | Res.fatal m, _ => Res.fatal m
    | Res.fuelOut, _ => Res.fuelOut

@[simp] theorem Res.bind_ok {α β : Type} (a : α) (f : α → Res β) :
    (Res.ok a >>= f) = f a := rfl

@[simp] theorem Res.bind_fatal {α β : Type} (m : String) (f : α → Res β) :
    (Res.fatal m >>= f) = Res.fatal m := rfl

@[simp] theorem Res.bind_fuelOut {α β : Type} (f : α → Res β) :
    (Res.fuelOut >>= f) = (Res.fuelOut : Res β) := rfl

@[simp] theorem Res.pure_eq {α : Type} (a : α) :
    (pure a : Res α) = Res.ok a := rfl

/-- Type descriptors: the fragment of Go's `reflect.Type` the engine
inspects.  `strct n` is a nominal reference to the struct named `n` in the
registry environment; `timeT`, `urlT`, `ipT`, `ipAddrT`, `rawMessageT` are
the well-known stdlib types the code compares against (`timeType`, `urlType`,
`ipType`, `ipAddrType`, `rawMessageType`); `unsupported` stands for any kind
the walker's `default` branch maps to `nil` (chan, func, ...). -/
inductive Ty where
  | bool
  | i | i8 | i16 | i32 | i64
  | u | u8 | u16 | u32 | u64
  | f32 | f64
  | str
  | ptr (elem : Ty)
  | slice (elem : Ty)
  | arr (len : Nat) (elem : Ty)
  | mp (elem : Ty)
  | strct (name : String)
  | iface
  | timeT | urlT | ipT | ipAddrT | rawMessageT
  | unsupported
deriving DecidableEq, Repr

/-- `deref` from registry.go: strip pointer indirections. -/
def deref : Ty → Ty
  | .ptr e => deref e
  | t => t

/-- Kind test for `t.Kind() == reflect.Struct`.  `time.Time`, `url.URL` and
`netip.Addr` are struct kinds in Go; `net.IP` and `json.RawMessage` are
slice kinds. -/
def kindStruct : Ty → Bool
  | .strct _ | .timeT | .urlT | .ipAddrT => true
  | _ => false

/-- Kind test for `t.Kind() == reflect.Array || t.Kind() == reflect.Slice`
(the pointer-to-sequence decay rule); `net.IP` and `json.RawMessage` are
slice kinds. -/
def kindSeq : Ty → Bool
  | .slice _ | .arr _ _ | .ipT | .rawMessageT => true
  | _ => false

/-- `reflect.Type.Name()` for the kinds that matter to hints: named structs
and the well-known types have names, composite kinds are unnamed. -/
def tyName : Ty → String
  | .strct n => n
  | .timeT => "Time"
  | .urlT => "URL"
  | .ipT => "IP"
  | .ipAddrT => "Addr"
  | .rawMessageT => "RawMessage"
  | .bool => "bool"
  | .i => "int"
  | .i8 => "int8"
  | .i16 => "int16"
  | .i32 => "int32"
  | .i64 => "int64"
  | .u => "uint"
  | .u8 => "uint8"
  | .u16 => "uint16"
  | .u32 => "uint32"
  | .u64 => "uint64"
  | .f32 => "float32"
  | .f64 => "float64"
  | .str => "string"
  | _ => ""

/-- Rendering of a type used in the duplicate-name panic message (Go's `%s`
on a `reflect.Type`; the exact rendering is abstracted). -/
def tyStr (t : Ty) : String := tyName (deref t)

/-! ## Association lists (Go maps) and string utilities -/

/-- First-match lookup, modelling Go map read. -/
def lookupA {α : Type} : List (String × α) → String → Option α
  | [], _ => none
  | (k, v) :: l, k' => if k = k' then some v else lookupA l k'

/-- Map write modelled by shadowing: the new binding is consulted first. -/
def insertA {α : Type} (l : List (String × α)) (k : String) (v : α) :
    List (String × α) := (k, v) :: l

/-- Remove all bindings of a key. -/
def eraseA {α : Type} : List (String × α) → String → List (String × α)
  | [], _ => []
  | (k, v) :: l, k' => if k = k' then eraseA l k' else (k, v) :: eraseA l k'

/-- Map write keeping keys unique (used where the model iterates the keys,
mirroring Go map-key iteration). -/
def insertU {α : Type} (l : List (String × α)) (k : String) (v : α) :
    List (String × α) := (k, v) :: eraseA l k

/-- Lookup in the alias table (keyed by a `Ty`). -/
def lookupTy : List (Ty × Ty) → Ty → Option Ty
  | [], _ => none
  | (k, v) :: l, k' => if k = k' then some v else lookupTy l k'

/-- Set-insert into the `seen` set. -/
def insertTy (l : List Ty) (t : Ty) : List Ty :=
  if t ∈ l then l else t :: l

/-- Go `strings.Contains` on ASCII strings, via character lists. -/
def listInfixB (needle : List Char) : List Char → Bool
  | [] => needle.isEmpty
  | c :: rest => needle.isPrefixOf (c :: rest) || listInfixB needle rest

def containsSub (s sub : String) : Bool := listInfixB sub.toList s.toList

/-- Go `strings.HasPrefix` on ASCII strings. -/
def hasPre (s p : String) : Bool := p.toList.isPrefixOf s.toList

/-- Go `s[n:]` on ASCII strings. -/
def strDrop (s : String) (n : Nat) : String := (s.toList.drop n).asString

/-- Go `len(s)` on ASCII strings. -/
def strLen (s : String) : Nat := s.toList.length

/-- ASCII lexicographic `<=`, modelling Go byte-wise string order. -/
def charsLe : List Char → List Char → Bool
  | [], _ => true
  | _ :: _, [] => false
  | a :: as, b :: bs =>
    if a < b then true else if a = b then charsLe as bs else false

def strLe (a b : String) : Bool := charsLe a.toList b.toList

/-- Insertion sort by `strLe`, modelling `sort.Strings`. -/
def insortStr (x : String) : List String → List String
  | [] => [x]
  | y :: ys => if strLe x y then x :: y :: ys else y :: insortStr x ys

def sortStrs : List String → List String
  | [] => []
  | x :: xs => insortStr x (sortStrs xs)

/-- The ASCII single-quote character (codepoint 39), used to reproduce the
quote marks in the Go error messages. -/
def sq : String := String.singleton (Char.ofNat 39)

/-- Go `strings.Split(s, ",")` on the character list. -/
def splitCommaCh : List Char → List (List Char)
  | [] => [[]]
  | c :: rest =>
    let r := splitCommaCh rest
    if c = ',' then [] :: r
    else
      match r with
      | [] => [[c]]
      | h :: t => (c :: h) :: t

/-- Go `strings.Split(s, ",")`. -/
def splitComma (s : String) : List String :=
  (splitCommaCh s.toList).map List.asString

/-- Go `strings.TrimSpace` (ASCII whitespace). -/
def trimStr (s : String) : String :=
  (((s.toList.dropWhile Char.isWhitespace).reverse.dropWhile
    Char.isWhitespace).reverse).asString

/-! ## Schema nodes (`huma.Schema`, restricted to the fields this engine
writes: Type, Format, Nullable, Ref, ContentEncoding, Minimum, Items,
MinItems, MaxItems, Properties, Required, AdditionalProperties,
DependentRequired, OneOf). -/

mutual
/-- A schema node.  Constructor argument order: type, format, nullable, ref,
contentEncoding, minimum, items, minItems, maxItems, properties, required,
additionalProperties, dependentRequired, oneOf.  `Minimum` (a `*float64` in
Go that this code only ever sets to `&minZero`) is modelled as `Option Int`. -/
inductive JSchema where
  | mk : String → String → Bool → String → String → Option Int →
      Option JSchema → Option Nat → Option Nat → List (String × JSchema) →
      List String → AddProps → List (String × List String) → List JSchema →
      JSchema

/-- The `AdditionalProperties any` field: `unset` is Go `nil`; `abool` a
boolean policy; `asch` a value schema (`asch none` models an interface
holding a nil `*huma.Schema`). -/
inductive AddProps where
  | unset
  | abool (v : Bool)
  | asch (s : Option JSchema)
end

namespace JSchema

def typ : JSchema → String | .mk v _ _ _ _ _ _ _ _ _ _ _ _ _ => v
def format : JSchema → String | .mk _ v _ _ _ _ _ _ _ _ _ _ _ _ => v
def nullable : JSchema → Bool | .mk _ _ v _ _ _ _ _ _ _ _ _ _ _ => v
def ref : JSchema → String | .mk _ _ _ v _ _ _ _ _ _ _ _ _ _ => v
def cEnc : JSchema → String | .mk _ _ _ _ v _ _ _ _ _ _ _ _ _ => v
def minimum : JSchema → Option Int | .mk _ _ _ _ _ v _ _ _ _ _ _ _ _ => v
def items : JSchema → Option JSchema | .mk _ _ _ _ _ _ v _ _ _ _ _ _ _ => v
def minItems : JSchema → Option Nat | .mk _ _ _ _ _ _ _ v _ _ _ _ _ _ => v
def maxItems : JSchema → Option Nat | .mk _ _ _ _ _ _ _ _ v _ _ _ _ _ => v
def props : JSchema → List (String × JSchema)
  | .mk _ _ _ _ _ _ _ _ _ v _ _ _ _ => v
def required : JSchema → List String | .mk _ _ _ _ _ _ _ _ _ _ v _ _ _ => v
def addProps : JSchema → AddProps | .mk _ _ _ _ _ _ _ _ _ _ _ v _ _ => v
def depReq : JSchema → List (String × List String)
  | .mk _ _ _ _ _ _ _ _ _ _ _ _ v _ => v
def oneOf : JSchema → List JSchema | .mk _ _ _ _ _ _ _ _ _ _ _ _ _ v => v

/-- The zero `huma.Schema{}`. -/
def empty : JSchema :=
  .mk "" "" false "" "" none none none none [] [] .unset [] []

/-- `s.Type = v` on an existing node. -/
def setTyp (v : String) : JSchema → JSchema
  | .mk _ b c d e f g h i j k l m n => .mk v b c d e f g h i j k l m n

/-- `s.Nullable = v` on an existing node. -/
def setNullable (v : Bool) : JSchema → JSchema
  | .mk a b _ d e f g h i j k l m n => .mk a b v d e f g h i j k l m n

/-- A scalar node: type, format, nullable, minimum. -/
def scalar (t f : String) (nl : Bool) (mn : Option Int) : JSchema :=
  .mk t f nl "" "" mn none none none [] [] .unset [] []

/-- `&huma.Schema{Ref: r}`. -/
def refNode (r : String) : JSchema :=
  .mk "" "" false r "" none none none none [] [] .unset [] []

end JSchema

/-! ## Struct descriptors and the registry -/

/-- A method as seen through `reflect`: name, number of results, first
result type, and whether it is declared on the pointer receiver (Go method
sets: the value type `T` only exposes value-receiver methods, `*T` exposes
both). -/
structure SMethod where
  mname : String
  numOut : Nat
  outTy : Ty
  ptrRecv : Bool

/-- A struct field: declared name, declared type, struct tags (an
association list key → value, modelling `reflect.StructTag`), exportedness,
and whether the field is embedded (`Anonymous`). -/
structure StructField where
  fname : String
  ftype : Ty
  tags : List (String × String)
  exported : Bool
  anon : Bool

/-- `f.Tag.Get(k)`: empty string when absent. -/
def tagGet (f : StructField) (k : String) : String :=
  (lookupA f.tags k).getD ""

/-- `f.Tag.Lookup(k)`. -/
def tagLookup (f : StructField) (k : String) : Option String :=
  lookupA f.tags k

/-- Structural metadata of a named struct type.  `provider` models the
optional `huma.SchemaProvider` capability (`some s` = implements it and its
`Schema(r)` method returns the fixed node `s`); `textUnm` models
`encoding.TextUnmarshaler`; `transform` models the optional
`huma.SchemaTransformer` capability applied by `SchemaFromType`. -/
structure StructDesc where
  sfields : List StructField
  methods : List SMethod
  provider : Option JSchema
  textUnm : Bool
  transform : Option (JSchema → JSchema)

def StructDesc.empty : StructDesc := ⟨[], [], none, false, none⟩

/-- Registry configuration: the ref prefix, the injected naming function,
and the (fixed) universe of named struct types. -/
structure Cfg where
  pfx : String
  namer : Ty → String → String
  env : List (String × StructDesc)

def descOf (cfg : Cfg) (n : String) : StructDesc :=
  (lookupA cfg.env n).getD StructDesc.empty

/-- The `huma.SchemaProvider` capability check `reflect.New(t).Interface().(huma.SchemaProvider)`
for a dereferenced type. -/
def providerOf (cfg : Cfg) : Ty → Option JSchema
  | .strct n => (descOf cfg n).provider
  | _ => none

/-- The `encoding.TextUnmarshaler` capability check.  Among the well-known
stdlib types, `time.Time`, `net.IP` and `netip.Addr` implement it;
`url.URL` and `json.RawMessage` do not. -/
def textUnmOf (cfg : Cfg) : Ty → Bool
  | .strct n => (descOf cfg n).textUnm
  | .timeT => true
  | .ipT => true
  | .ipAddrT => true
  | _ => false

/-- The `huma.SchemaTransformer` capability check. -/
def transformOf (cfg : Cfg) : Ty → Option (JSchema → JSchema)
  | .strct n => (descOf cfg n).transform
  | _ => none

/-- The method set visible on `oriT` (`oriT.NumMethod()`/`Method(i)`):
pointer-receiver methods are visible only through a pointer type. -/
def methodsOf (cfg : Cfg) (oriT : Ty) : List SMethod :=
  match deref oriT with
  | .strct n =>
    if oriT = .strct n then (descOf cfg n).methods.filter (fun m => !m.ptrRecv)
    else (descOf cfg n).methods
  | _ => []

/-- Mutable registry state: `schemas`, `types`, `seen`, `aliases` of
`protoJSONHumaRegistry`. -/
structure RState where
  schemas : List (String × JSchema)
  types : List (String × Ty)
  seen : List Ty
  aliases : List (Ty × Ty)

/-- The state `NewRegistry` starts from. -/
def RState.empty : RState := ⟨[], [], [], []⟩

/-! ## Field metadata (json_format.go lines 239-296, `boolTag`,
`protobufNameRegex`) -/

def isAlnumC (c : Char) : Bool := c.isAlpha || c.isDigit

/-- One attempted match of `name\=([a-zA-Z0-9]+)\,` at the head of `l`:
requires the literal `name=`, then a non-empty maximal alphanumeric run,
immediately followed by a comma.  (Reducing a greedy `[a-zA-Z0-9]+` can
never help, because the character after a shorter run is alphanumeric and
cannot match `\,`, so only the maximal run need be considered.) -/
def pbMatchAt (l : List Char) : Option String :=
  if ("name=".toList).isPrefixOf l then
    if (List.takeWhile isAlnumC (l.drop 5)).isEmpty then none
    else
      match List.dropWhile isAlnumC (l.drop 5) with
      | ',' :: _ => some (List.takeWhile isAlnumC (l.drop 5)).asString
      | _ => none
  else none

/-- The submatch of `protobufNameRegex = ^.*name\=([a-zA-Z0-9]+)\,.*$`:
with a greedy leading `.*` the engine prefers the latest position at which
the rest of the pattern matches, so the scan prefers later matches. -/
def pbScan : List Char → Option String
  | [] => none
  | c :: rest =>
    match pbScan rest with
    | some n => some n
    | none => pbMatchAt (c :: rest)

/-- `protobufNameRegex.FindStringSubmatch(j)` restricted to capture group 1;
`none` models a failed match (where the Go code's `[1]` index panics). -/
def protobufExtract (j : String) : Option String := pbScan j.toList

/-- Declarative reading of the regex: `j` contains `name=` followed by a
non-empty alphanumeric run followed by a comma. -/
def MatchesPB (j : String) : Prop :=
  ∃ a w b, j.toList = a ++ "name=".toList ++ w ++ ',' :: b ∧
    w ≠ [] ∧ ∀ c ∈ w, isAlnumC c = true

/-- The Go runtime panic raised by `protobufNameRegex.FindStringSubmatch(j)[1]`
when the regex does not match (`FindStringSubmatch` returns `nil`). -/
def pbPanicMsg : String := "runtime error: index out of range [1] with length 0"

/-- Lines 242-257: the effective wire name and the pre-override requiredness
of a field, from the `protobuf` / `json` tags. -/
def fieldNameReq (f : StructField) : Res (String × Bool) :=
  if tagGet f "protobuf" ≠ "" then
    match protobufExtract (tagGet f "protobuf") with
    | none => .fatal pbPanicMsg
    | some n =>
      .ok (if n ≠ "" then n else f.fname,
        !((splitComma (tagGet f "protobuf")).contains "oneof"))
  else
    if tagGet f "json" ≠ "" then
      .ok (if (splitComma (tagGet f "json")).headD "" ≠ "" then
          (splitComma (tagGet f "json")).headD "" else f.fname,
        !(containsSub (tagGet f "json") "omitempty"))
    else .ok (f.fname, true)

/-- `boolTag` (lines 357-368): empty means false, anything other than
`true`/`false` panics. -/
def boolTagF (f : StructField) (tag : String) : Res Bool :=
  let v := tagGet f tag
  if v ≠ "" then
    if v = "true" then .ok true
    else if v = "false" then .ok false
    else .fatal ("invalid bool tag " ++ sq ++ tag ++ sq ++ " for field " ++
      sq ++ f.fname ++ sq ++ ": " ++ v)
  else .ok false

/-- The `getName` closure (lines 210-222) applied after stripping `Get`:
lower-case the first character if it is upper case (ASCII fragment of
`unicode.ToLower`; the `utf8.RuneError` escape corresponds to the empty
string). -/
def lowerFirst (s : String) : String :=
  match s.toList with
  | [] => s
  | c :: cs => if c.toLower = c then s else (c.toLower :: cs).asString

def accessorName (m : String) : String := lowerFirst (strDrop m 3)

/-! ## Dependent-field validation (lines 300-318) -/

def depErrMsg (fld d : String) : String :=
  "dependent field " ++ sq ++ d ++ sq ++ " for field " ++ sq ++ fld ++ sq ++
    " does not exist"

/-- The error strings contributed by one `dependentRequired` entry, in
declaration order of its dependents. -/
def depErrs1 (props : List (String × JSchema)) (fld : String)
    (deps : List String) : List String :=
  deps.filterMap (fun d =>
    if (lookupA props d).isSome then none else some (depErrMsg fld d))

/-- All error strings, iterating the map keys in sorted order
(`sort.Strings(depKeys)`). -/
def depErrs (props : List (String × JSchema))
    (depMap : List (String × List String)) : List String :=
  ((sortStrs (depMap.map Prod.fst)).map
    (fun fld => depErrs1 props fld ((lookupA depMap fld).getD []))).flatten

/-- `none` when every dependent exists; otherwise the aggregated message
(`strings.Join(errs, "; ")`). -/
def checkDependent (props : List (String × JSchema))
    (depMap : List (String × List String)) : Option String :=
  let errs := depErrs props depMap
  if errs = [] then none else some (String.intercalate "; " errs)

/-! ## Field enumeration (`getFields`, lines 380-414) -/

def structFieldsOf (cfg : Cfg) : Ty → List StructField
  | .strct n => (descOf cfg n).sfields
  | _ => []

/-- Breadth-first field enumeration over a worklist of (dereferenced)
embedded struct types, mirroring `getFields`: direct exported
non-anonymous fields first, then the recursive expansion of each exported
anonymous field in order, guarded by the `visited` set.  Fuel decreases at
every step; each step pops one worklist element, and expansion happens at
most once per distinct struct type, so `getFieldsFuel` fuel is always
enough. -/
def getFieldsL (cfg : Cfg) : Nat → List Ty → List Ty →
    (List StructField × List Ty)
  | 0, _, visited => ([], visited)
  | _ + 1, [], visited => ([], visited)
  | n + 1, t :: ts, visited =>
    if !kindStruct t then getFieldsL cfg n ts visited
    else if t ∈ visited then getFieldsL cfg n ts visited
    else
      let vis1 := insertTy visited t
      let fs := structFieldsOf cfg t
      let direct := fs.filter (fun f => f.exported && !f.anon)
      let embedded := (fs.filter (fun f => f.exported && f.anon)).map
        (fun f => deref f.ftype)
      let (fs1, vis2) := getFieldsL cfg n embedded vis1
      let (fs2, vis3) := getFieldsL cfg n ts vis2
      (direct ++ fs1 ++ fs2, vis3)

def getFieldsFuel (cfg : Cfg) : Nat :=
  cfg.env.foldl (fun a p => a + p.2.sfields.length + 1) 4

/-- `getFields(t, make(map[reflect.Type]struct{}))`. -/
def getFieldsTop (cfg : Cfg) (t : Ty) : List StructField :=
  (getFieldsL cfg (getFieldsFuel cfg) [t] []).1

/-! ## The type walker (`SchemaFromType` / `schemaFromType`) -/

/-- The signature of the registry callback the walker recurses through
(`r.Schema(t, allowRef, hint)`), with the registry state made explicit. -/
abbrev SchFn : Type := RState → Ty → Bool → String → Res (Option JSchema × RState)

def isPtrKind : Ty → Bool
  | .ptr _ => true
  | _ => false

/-- Modelled from the spec: `huma.SchemaFromField` is a host-framework
helper (not part of this repository); per §4.2 step 4 it derives "the
field's own schema recursively through the same extension-point-aware
process", resolving the field's declared type through the registry with a
reference allowed.  The host framework's validation-tag post-processing is
outside this model. -/
def humaFieldSchema (sch : SchFn) (f : StructField) (hint : String)
    (st : RState) : Res (Option JSchema × RState) :=
  sch st f.ftype true hint

/-- Accumulator of the struct-field loop (lines 169-175 plus the threaded
registry state): `fieldSet`, `props`, `required`, `dependentRequiredMap`,
the `OneOf` list and `ignoreAdditionalProperties`. -/
structure FAcc where
  st : RState
  fieldSet : List String
  props : List (String × JSchema)
  req : List String
  depMap : List (String × List String)
  oneOf : List JSchema
  ignoreAP : Bool

/-- The tagged-union accessor loop (lines 188-232): for each single-result
`Get*` method of the original type whose suffix is not a declared field,
derive the result type's schema as a reference and append a one-property
"one of" alternative. -/
def procOneof (sch : SchFn) (allFields : List StructField) (tname : String) :
    List SMethod → FAcc → Res FAcc
  | [], acc => .ok acc
  | m :: ms, acc =>
    if m.numOut ≠ 1 then procOneof sch allFields tname ms acc
    else if !hasPre m.mname "Get" then procOneof sch allFields tname ms acc
    else if allFields.any (fun f => m.mname = "Get" ++ f.fname) then
      procOneof sch allFields tname ms acc
    else
      match sch acc.st m.outTy true (tname ++ tyName m.outTy ++ "Struct") with
      | .fatal msg => .fatal msg
      | .fuelOut => .fuelOut
      | .ok (fsOpt, st') =>
        match fsOpt with
        | none => procOneof sch allFields tname ms { acc with st := st' }
        | some fs =>
          let nm := accessorName m.mname
          let alt : JSchema := .mk "object" "" false "" "" none none none
            none [(nm, fs)] [nm] .unset [] []
          let newOneOf := acc.oneOf ++ [alt]
          procOneof sch allFields tname ms
            { acc with st := st', ignoreAP := true, oneOf := newOneOf }

/-- The `required`-tag override (line 263-265): consulted only when the tag
is present. -/
def reqOverride (f : StructField) (req0 : Bool) : Res Bool :=
  match tagLookup f "required" with
  | some _ => boolTagF f "required"
  | none => .ok req0

/-- Record a `dependentRequired` tag (lines 273-275). -/
def recordDep (f : StructField) (name : String) (acc : FAcc) : FAcc :=
  if trimStr (tagGet f "dependentRequired") ≠ "" then
    { acc with depMap := (insertU acc.depMap name
        (splitComma (tagGet f "dependentRequired"))) }
  else acc

/-- The two post-derivation adjustments of a field schema: `int64` fields
with a protobuf tag are serialized as strings (lines 279-281), and pointer
fields with `omitempty` and no nullability override are made non-nullable
(lines 291-296). -/
def adjustField (f : StructField) (fs0 : JSchema) : JSchema :=
  let fs1 := if tagGet f "protobuf" ≠ "" && f.ftype = .i64 then
      fs0.setTyp "string"
    else fs0
  if isPtrKind f.ftype && containsSub (tagGet f "json") "omitempty" &&
      tagGet f "nullable" ≠ "true" then
    fs1.setNullable false
  else fs1

def appendIf (b : Bool) (l : List String) (x : String) : List String :=
  if b then l ++ [x] else l

/-- Lines 277-296 when the field schema is non-nil: apply the adjustments,
store the property and extend the required list. -/
def emitField (f : StructField) (name : String) (req1 : Bool) (st' : RState)
    (fs0 : JSchema) (acc2 : FAcc) : FAcc :=
  let newProps := insertA acc2.props name (adjustField f fs0)
  let newReq := appendIf req1 acc2.req name
  { acc2 with st := st', props := newProps, req := newReq }

/-- Mark a declared field name as claimed (line 237). -/
def skipAcc (f : StructField) (acc : FAcc) : FAcc :=
  { acc with fieldSet := f.fname :: acc.fieldSet }

/-- Lines 277-297: derive the field schema through the host framework's
field helper and store the property when it is non-nil. -/
def procEmit (sch : SchFn) (f : StructField) (tname name : String)
    (req1 : Bool) (acc2 : FAcc) : Res FAcc :=
  match humaFieldSchema sch f (tname ++ f.fname ++ "Struct") acc2.st with
  | .fatal m => .fatal m
  | .fuelOut => .fuelOut
  | .ok (fsOpt, st') =>
    match fsOpt with
    | none => .ok { acc2 with st := st' }
    | some fs0 => .ok (emitField f name req1 st' fs0 acc2)

/-- Lines 239-297 for a non-union field whose declared name is fresh:
name/requiredness resolution, the `-` and `hidden` exclusions,
`dependentRequired` recording, then the field schema emission. -/
def procNamed (sch : SchFn) (f : StructField) (tname : String)
    (acc1 : FAcc) : Res FAcc :=
  match fieldNameReq f with
  | .fatal m => .fatal m
  | .fuelOut => .fuelOut
  | .ok (name, req0) =>
    if name = "-" then .ok acc1
    else
      match reqOverride f req0 with
      | .fatal m => .fatal m
      | .fuelOut => .fuelOut
      | .ok req1 =>
        match boolTagF f "hidden" with
        | .fatal m => .fatal m
        | .fuelOut => .fuelOut
        | .ok hid =>
          if hid then .ok acc1
          else procEmit sch f tname name req1 (recordDep f name acc1)

/-- One iteration of the field loop (lines 178-297), in source order:
ancestor-shadowing check, `protobuf_oneof` dispatch, then the named-field
path. -/
def procField (sch : SchFn) (allFields : List StructField) (tname : String)
    (msOri : List SMethod) (f : StructField) (acc : FAcc) : Res FAcc :=
  if f.fname ∈ acc.fieldSet then .ok acc
  else if tagGet f "protobuf_oneof" ≠ "" then
    procOneof sch allFields tname msOri acc
  else procNamed sch f tname (skipAcc f acc)

def procFields (sch : SchFn) (allFields : List StructField) (tname : String)
    (msOri : List SMethod) : List StructField → FAcc → Res FAcc
  | [], acc => .ok acc
  | f :: fs, acc =>
    match procField sch allFields tname msOri f acc with
    | .fatal m => .fatal m
    | .fuelOut => .fuelOut
    | .ok acc' => procFields sch allFields tname msOri fs acc'

/-- `t.FieldByName("_")` for the unexported override marker field. -/
def findMarker (cfg : Cfg) : Ty → Option StructField
  | .strct n => (descOf cfg n).sfields.find? (fun f => f.fname = "_")
  | _ => none

/-- Lines 320-333: the `additionalProperties` default and the marker-field
overrides; skipped entirely when a "one of" alternative was produced
(`ignoreAdditionalProperties`), in which case the policy stays unset.
Returns the policy and the struct-level nullability. -/
def markerAP (mf : StructField) : Res Bool :=
  match tagLookup mf "additionalProperties" with
  | some _ => boolTagF mf "additionalProperties"
  | none => .ok false

def markerNl (mf : StructField) : Res Bool :=
  match tagLookup mf "nullable" with
  | some _ => boolTagF mf "nullable"
  | none => .ok false

def apOverride (cfg : Cfg) (t : Ty) (ignoreAP : Bool) :
    Res (AddProps × Bool) :=
  if ignoreAP then .ok (.unset, false)
  else
    match findMarker cfg t with
    | none => .ok (.abool false, false)
    | some mf =>
      match markerAP mf with
      | .fatal m => .fatal m
      | .fuelOut => .fuelOut
      | .ok apv =>
        match markerNl mf with
        | .fatal m => .fatal m
        | .fuelOut => .fuelOut
        | .ok nlv => .ok (.abool apv, nlv)

/-- Lines 298-340 after the dependent-field validation: compute the
`additionalProperties` policy and the struct-level nullability override and
assemble the object node. -/
def finishStruct (cfg : Cfg) (t : Ty) (acc : FAcc) :
    Res (Option JSchema × RState) :=
  match apOverride cfg t acc.ignoreAP with
  | .fatal m => .fatal m
  | .fuelOut => .fuelOut
  | .ok (ap, nl) =>
    .ok (some (.mk "object" "" nl "" "" none none none none acc.props
      acc.req ap acc.depMap acc.oneOf), acc.st)

/-- The `reflect.Struct` case (lines 168-340). -/
def structBranch (sch : SchFn) (cfg : Cfg) (oriT t : Ty) (st : RState) :
    Res (Option JSchema × RState) :=
  match procFields sch (getFieldsTop cfg t) (tyName t) (methodsOf cfg oriT)
      (getFieldsTop cfg t) ⟨st, [], [], [], [], [], false⟩ with
  | .fatal m => .fatal m
  | .fuelOut => .fuelOut
  | .ok acc =>
    match checkDependent acc.props acc.depMap with
    | some m => .fatal m
    | none => finishStruct cfg t acc

/-- The kind dispatch of `schemaFromType` (lines 106-345), on the
dereferenced type; the well-known types and capability escapes have already
returned.  Widths follow a 64-bit platform (`bits.UintSize == 64`). -/
def kindSwitch (sch : SchFn) (cfg : Cfg) (oriT t : Ty) (st : RState) :
    Res (Option JSchema × RState) :=
  match t with
  | .bool => .ok (some (JSchema.scalar "boolean" "" false none), st)
  | .i => .ok (some (JSchema.scalar "integer" "int64" false none), st)
  | .i8 => .ok (some (JSchema.scalar "integer" "int32" false none), st)
  | .i16 => .ok (some (JSchema.scalar "integer" "int32" false none), st)
  | .i32 => .ok (some (JSchema.scalar "integer" "int32" false none), st)
  | .i64 => .ok (some (JSchema.scalar "integer" "int64" false none), st)
  | .u => .ok (some (JSchema.scalar "integer" "int64" false (some 0)), st)
  | .u8 => .ok (some (JSchema.scalar "integer" "int32" false (some 0)), st)
  | .u16 => .ok (some (JSchema.scalar "integer" "int32" false (some 0)), st)
  | .u32 => .ok (some (JSchema.scalar "integer" "int32" false (some 0)), st)
  | .u64 => .ok (some (JSchema.scalar "integer" "int64" false (some 0)), st)
  | .f32 => .ok (some (JSchema.scalar "number" "float" false none), st)
  | .f64 => .ok (some (JSchema.scalar "number" "double" false none), st)
  | .str => .ok (some (JSchema.scalar "string" "" false none), st)
  | .slice e =>
    if e = .u8 then
      .ok (some (.mk "string" "" false "" "base64" none none none none []
        [] .unset [] []), st)
    else
      match sch st e true (tyName (.slice e) ++ "Item") with
      | .fatal m => .fatal m
      | .fuelOut => .fuelOut
      | .ok (es, st') =>
        .ok (some (.mk "array" "" true "" "" none es none none [] []
          .unset [] []), st')
  | .arr l e =>
    if e = .u8 then
      .ok (some (.mk "string" "" false "" "base64" none none none none []
        [] .unset [] []), st)
    else
      match sch st e true (tyName (.arr l e) ++ "Item") with
      | .fatal m => .fatal m
      | .fuelOut => .fuelOut
      | .ok (es, st') =>
        .ok (some (.mk "array" "" true "" "" none es (some l) (some l) []
          [] .unset [] []), st')
  | .mp e =>
    match sch st e true (tyName (.mp e) ++ "Value") with
    | .fatal m => .fatal m
    | .fuelOut => .fuelOut
    | .ok (es, st') =>
      .ok (some (.mk "object" "" false "" "" none none none none [] []
        (.asch es) [] []), st')
  | .strct _ => structBranch sch cfg oriT t st
  | .iface => .ok (some JSchema.empty, st)
  | _ => .ok (none, st)

/-- The trailing scalar-nullability switch (lines 347-352). -/
def scalarFix (isPointer : Bool) (s : JSchema) : JSchema :=
  if s.typ = "boolean" ∨ s.typ = "integer" ∨ s.typ = "number" ∨
      s.typ = "string" then s.setNullable isPointer
  else s

/-- `schemaFromType` (lines 68-355) on the already-dereferenced type `t`
with `isPointer` recording the indirection of the original type:
capability escapes, well-known stdlib types, text-unmarshalable types, then
the kind dispatch and the trailing scalar-nullability rule. -/
def schemaCore (sch : SchFn) (cfg : Cfg) (oriT : Ty) (isPointer : Bool)
    (t : Ty) (st : RState) : Res (Option JSchema × RState) :=
  match providerOf cfg t with
  | some ps => .ok (some ps, st)
  | none =>
    match t with
    | .timeT => .ok (some (JSchema.scalar "string" "date-time" isPointer none), st)
    | .urlT => .ok (some (JSchema.scalar "string" "uri" isPointer none), st)
    | .ipT => .ok (some (JSchema.scalar "string" "ipv4" isPointer none), st)
    | .ipAddrT => .ok (some (JSchema.scalar "string" "ipv4" isPointer none), st)
    | .rawMessageT => .ok (some JSchema.empty, st)
    | _ =>
      if textUnmOf cfg t then
        .ok (some (JSchema.scalar "string" "" isPointer none), st)
      else
        match kindSwitch sch cfg oriT t st with
        | .fatal m => .fatal m
        | .fuelOut => .fuelOut
        | .ok (sOpt, st') => .ok (sOpt.map (scalarFix isPointer), st')

def schemaFromTypeF (sch : SchFn) (cfg : Cfg) (oriT : Ty) (st : RState) :
    Res (Option JSchema × RState) :=
  schemaCore sch cfg oriT (isPtrKind oriT) (deref oriT) st

/-- `SchemaFromType` (lines 54-64): run the walker, then the optional
`huma.SchemaTransformer` patch (modelled as mapping over a present node). -/
def SchemaFromTypeF (sch : SchFn) (cfg : Cfg) (t : Ty) (st : RState) :
    Res (Option JSchema × RState) :=
  match schemaFromTypeF sch cfg t st with
  | .fatal m => .fatal m
  | .fuelOut => .fuelOut
  | .ok (sOpt, st') =>
    match transformOf cfg (deref t) with
    | some tr => .ok (sOpt.map tr, st')
    | none => .ok (sOpt, st')

/-! ## The registry (`protoJSONHumaRegistry.Schema` and the reverse
lookups, registry.go lines 54-144) -/

/-- Ref-eligibility (lines 68-83): struct kinds, excluding `time.Time`,
self-schema providers and text-unmarshalable types. -/
def getsRefOf (cfg : Cfg) (t : Ty) : Bool :=
  kindStruct t && !(t = .timeT) && !(providerOf cfg t).isSome &&
    !(textUnmOf cfg t)

/-- The duplicate-name panic message (line 92); Go's `%s` rendering of the
type descriptors is abstracted by `tyStr`. -/
def dupMsg (st : RState) (name : String) (t : Ty) : String :=
  "duplicate name: " ++ name ++ ", new type: " ++ tyStr t ++
    ", existing type: " ++
    (match lookupA st.types name with | some x => tyStr x | none => "")

/-- The sequence-decay rule (lines 55-61): the type the naming function and
the walker receive. -/
def origOf (t0 : Ty) : Ty := if kindSeq (deref t0) then deref t0 else t0

/-- `name = r.namer(origType, hint)` (line 85). -/
def nameOf (cfg : Cfg) (t0 : Ty) (hint : String) : String :=
  cfg.namer (origOf t0) hint

/-- The placeholder registration (lines 101-106). -/
def regPlaceholder (st : RState) (name : String) (t : Ty) : RState :=
  { st with schemas := insertA st.schemas name JSchema.empty,
            types := insertA st.types name t,
            seen := insertTy st.seen t }

/-- Storing the walked schema (lines 108-110); the walker never returns
`nil` for a ref-eligible type, so the default is unreachable. -/
def regFinal (st : RState) (name : String) (sOpt : Option JSchema) :
    RState :=
  { st with schemas := insertA st.schemas name (sOpt.getD JSchema.empty) }

/-- Lines 108-115 after the walk: store the result when ref-eligible and
return either a reference node or the full node. -/
def finishReg (cfg : Cfg) (getsRef allowRef : Bool) (name : String)
    (sOpt : Option JSchema) (st2 : RState) : Res (Option JSchema × RState) :=
  if getsRef && allowRef then
    .ok (some (JSchema.refNode (cfg.pfx ++ name)),
      if getsRef then regFinal st2 name sOpt else st2)
  else .ok (sOpt, if getsRef then regFinal st2 name sOpt else st2)

/-- Lines 87-98: the cache consultation for a ref-eligible type whose name
is already registered. -/
def cacheHit (cfg : Cfg) (st : RState) (t : Ty) (name : String)
    (allowRef : Bool) (s : JSchema) : Res (Option JSchema × RState) :=
  if !(t ∈ st.seen) then .fatal (dupMsg st name t)
  else if allowRef then .ok (some (JSchema.refNode (cfg.pfx ++ name)), st)
  else .ok (some s, st)

/-- `Schema` after alias redirection (lines 68-115). -/
def SchemaCore (cfg : Cfg) (sch : SchFn) (st : RState) (t0 : Ty)
    (allowRef : Bool) (hint : String) : Res (Option JSchema × RState) :=
  match (if getsRefOf cfg (deref t0) then
      lookupA st.schemas (nameOf cfg t0 hint) else none) with
  | some s => cacheHit cfg st (deref t0) (nameOf cfg t0 hint) allowRef s
  | none =>
    match SchemaFromTypeF sch cfg (origOf t0)
        (if getsRefOf cfg (deref t0) then
          regPlaceholder st (nameOf cfg t0 hint) (deref t0) else st) with
    | .fatal m => .fatal m
    | .fuelOut => .fuelOut
    | .ok (sOpt, st2) =>
      finishReg cfg (getsRefOf cfg (deref t0)) allowRef
        (nameOf cfg t0 hint) sOpt st2

/-- One unfolding of `Schema` (lines 54-116), with the recursive call (used
for alias redirection and handed to the walker) abstracted as `sch`. -/
def SchemaBody (cfg : Cfg) (sch : SchFn) (st : RState) (t0 : Ty)
    (allowRef : Bool) (hint : String) : Res (Option JSchema × RState) :=
  match lookupTy st.aliases (deref t0) with
  | some al => sch st al allowRef hint
  | none => SchemaCore cfg sch st t0 allowRef hint

/-- `Schema`, with fuel bounding the recursion depth: fuel 0 is
`Res.fuelOut`, and every nested registry call (alias redirection and the
walker's callbacks) runs with one unit less. -/
def SchemaR (cfg : Cfg) : Nat → SchFn
  | 0 => fun _ _ _ _ => .fuelOut
  | n + 1 => fun st t0 aR hint => SchemaBody cfg (SchemaR cfg n) st t0 aR hint

/-- `SchemaFromRef` (lines 118-123). -/
def SchemaFromRefF (cfg : Cfg) (st : RState) (r : String) : Option JSchema :=
  if hasPre r cfg.pfx then lookupA st.schemas (strDrop r (strLen cfg.pfx))
  else none

/-- `TypeFromRef` (lines 125-127): no prefix check; `ref[len(r.prefix):]`
panics when the ref is shorter than the prefix. -/
def TypeFromRefF (cfg : Cfg) (st : RState) (r : String) : Res (Option Ty) :=
  if strLen r < strLen cfg.pfx then
    .fatal "runtime error: slice bounds out of range"
  else .ok (lookupA st.types (strDrop r (strLen cfg.pfx)))

/-- `RegisterTypeAlias` (lines 141-144). -/
def registerAlias (st : RState) (t al : Ty) : RState :=
  { st with aliases := (t, al) :: st.aliases }

/-! ## Basic inversion and lookup lemmas -/

theorem Res.bind_eq_ok {α β : Type} {x : Res α} {f : α → Res β} {b : β} :
    x >>= f = .ok b ↔ ∃ a, x = .ok a ∧ f a = .ok b := by
  cases x <;> simp

theorem Res.bind_eq_fuelOut {α β : Type} {x : Res α} {f : α → Res β} :
    x >>= f = .fuelOut ↔ x = .fuelOut ∨ ∃ a, x = .ok a ∧ f a = .fuelOut := by
  cases x <;> simp

@[simp] theorem lookupA_insertA {α : Type} (l : List (String × α))
    (k : String) (v : α) (k' : String) :
    lookupA (insertA l k v) k' = if k = k' then some v else lookupA l k' :=
  rfl

theorem mem_insertTy_self (l : List Ty) (t : Ty) : t ∈ insertTy l t := by
  unfold insertTy; split <;> simp_all

theorem mem_insertTy_of_mem {l : List Ty} {x : Ty} (t : Ty) (h : x ∈ l) :
    x ∈ insertTy l t := by
  unfold insertTy; split <;> simp_all

/-! ## State monotonicity

A successful registry call only grows the `seen` set and the domain of the
schema cache, and never touches the alias table.  This is proved once for a
generic callback and then transferred to `SchemaR` by induction on fuel. -/

def Mono (st st' : RState) : Prop :=
  (∀ x, x ∈ st.seen → x ∈ st'.seen) ∧ st'.aliases = st.aliases ∧
    (∀ k, (lookupA st.schemas k).isSome → (lookupA st'.schemas k).isSome)

theorem Mono.refl (st : RState) : Mono st st := ⟨fun _ h => h, rfl, fun _ h => h⟩

theorem Mono.trans {a b c : RState} (h1 : Mono a b) (h2 : Mono b c) :
    Mono a c :=
  ⟨fun x hx => h2.1 x (h1.1 x hx), h2.2.1.trans h1.2.1,
   fun k hk => h2.2.2 k (h1.2.2 k hk)⟩

/-- The property of a callback that every monotonicity proof is generic
over. -/
def SchMono (sch : SchFn) : Prop :=
  ∀ st t a h r st', sch st t a h = .ok (r, st') → Mono st st'

theorem procOneof_mono {sch : SchFn} (hs : SchMono sch)
    (allFields : List StructField) (tname : String) :
    ∀ (ms : List SMethod) (acc acc' : FAcc),
      procOneof sch allFields tname ms acc = .ok acc' →
        Mono acc.st acc'.st := by
  intro ms
  induction ms with
  | nil =>
    intro acc acc' h
    simp only [procOneof] at h
    cases h
    exact Mono.refl _
  | cons m ms ih =>
    intro acc acc' h
    simp only [procOneof] at h
    split at h
    · exact ih _ _ h
    · split at h
      · exact ih _ _ h
      · split at h
        · exact ih _ _ h
        · split at h
          · cases h
          · cases h
          · rename_i fsOpt st' hcall
            have hm : Mono acc.st st' := hs _ _ _ _ _ _ hcall
            split at h
            · exact hm.trans (ih _ _ h)
            · exact hm.trans (ih _ _ h)

theorem procEmit_mono {sch : SchFn} (hs : SchMono sch) (f : StructField)
    (tname name : String) (req1 : Bool) (acc2 acc' : FAcc)
    (h : procEmit sch f tname name req1 acc2 = .ok acc') :
    Mono acc2.st acc'.st := by
  unfold procEmit at h
  split at h
  · cases h
  · cases h
  · rename_i fsOpt st' hcall
    have hm : Mono acc2.st st' := hs _ _ _ _ _ _ hcall
    split at h
    · cases h; exact hm
    · cases h; exact hm

theorem recordDep_st (f : StructField) (name : String) (acc : FAcc) :
    (recordDep f name acc).st = acc.st := by
  unfold recordDep; split <;> rfl

theorem procNamed_mono {sch : SchFn} (hs : SchMono sch) (f : StructField)
    (tname : String) (acc1 acc' : FAcc)
    (h : procNamed sch f tname acc1 = .ok acc') : Mono acc1.st acc'.st := by
  unfold procNamed at h
  split at h
  · cases h
  · cases h
  · split at h
    · cases h; exact Mono.refl _
    · split at h
      · cases h
      · cases h
      · split at h
        · cases h
        · cases h
        · split at h
          · cases h; exact Mono.refl _
          · have hm := procEmit_mono hs _ _ _ _ _ _ h
            rwa [recordDep_st] at hm

theorem procField_mono {sch : SchFn} (hs : SchMono sch)
    (allFields : List StructField) (tname : String) (msOri : List SMethod)
    (f : StructField) (acc acc' : FAcc)
    (h : procField sch allFields tname msOri f acc = .ok acc') :
    Mono acc.st acc'.st := by
  unfold procField at h
  split at h
  · cases h; exact Mono.refl _
  · split at h
    · exact procOneof_mono hs allFields tname msOri acc acc' h
    · exact procNamed_mono hs f tname (skipAcc f acc) acc' h

theorem procFields_mono {sch : SchFn} (hs : SchMono sch)
    (allFields : List StructField) (tname : String) (msOri : List SMethod) :
    ∀ (l : List StructField) (acc acc' : FAcc),
      procFields sch allFields tname msOri l acc = .ok acc' →
        Mono acc.st acc'.st := by
  intro l
  induction l with
  | nil =>
    intro acc acc' h
    simp only [procFields] at h
    cases h
    exact Mono.refl _
  | cons f fs ih =>
    intro acc acc' h
    simp only [procFields] at h
    split at h
    · cases h
    · cases h
    · rename_i acc1 h1
      exact (procField_mono hs _ _ _ _ _ _ h1).trans (ih _ _ h)

theorem finishStruct_st {cfg : Cfg} {t : Ty} {acc : FAcc}
    {r : Option JSchema × RState}
    (h : finishStruct cfg t acc = .ok r) : r.2 = acc.st := by
  unfold finishStruct at h
  split at h
  · cases h
  · cases h
  · rename_i ap nl _
    cases h
    rfl

theorem structBranch_mono {sch : SchFn} (hs : SchMono sch) (cfg : Cfg)
    (oriT t : Ty) (st : RState) {r : Option JSchema × RState}
    (h : structBranch sch cfg oriT t st = .ok r) : Mono st r.2 := by
  unfold structBranch at h
  split at h
  · cases h
  · cases h
  · rename_i acc h1
    have hm : Mono st acc.st :=
      procFields_mono hs _ _ _ _ ⟨st, [], [], [], [], [], false⟩ acc h1
    split at h
    · cases h
    · rw [finishStruct_st h]
      exact hm

theorem kindSwitch_mono {sch : SchFn} (hs : SchMono sch) (cfg : Cfg)
    (oriT t : Ty) (st : RState) {r : Option JSchema × RState}
    (h : kindSwitch sch cfg oriT t st = .ok r) : Mono st r.2 := by
  cases t <;> simp only [kindSwitch] at h <;>
    try (cases h; exact Mono.refl _)
  case slice e =>
    split at h
    · cases h; exact Mono.refl _
    · split at h
      · cases h
      · cases h
      · rename_i es st' hc
        cases h
        exact hs _ _ _ _ _ _ hc
  case arr l e =>
    split at h
    · cases h; exact Mono.refl _
    · split at h
      · cases h
      · cases h
      · rename_i es st' hc
        cases h
        exact hs _ _ _ _ _ _ hc
  case mp e =>
    split at h
    · cases h
    · cases h
    · rename_i es st' hc
      cases h
      exact hs _ _ _ _ _ _ hc
  case strct n => exact structBranch_mono hs cfg oriT _ st h

theorem schemaCore_mono {sch : SchFn} (hs : SchMono sch) (cfg : Cfg)
    (oriT : Ty) (isPointer : Bool) (t : Ty) (st : RState)
    {r : Option JSchema × RState}
    (h : schemaCore sch cfg oriT isPointer t st = .ok r) : Mono st r.2 := by
  unfold schemaCore at h
  split at h
  · cases h; exact Mono.refl _
  · split at h
    any_goals (cases h; exact Mono.refl _)
    split at h
    · cases h; exact Mono.refl _
    · split at h
      · cases h
      · cases h
      · rename_i sOpt st' hc
        cases h
        exact @kindSwitch_mono sch hs cfg oriT t st (sOpt, st') hc

theorem SchemaFromTypeF_mono {sch : SchFn} (hs : SchMono sch) (cfg : Cfg)
    (t : Ty) (st : RState) {r : Option JSchema × RState}
    (h : SchemaFromTypeF sch cfg t st = .ok r) : Mono st r.2 := by
  unfold SchemaFromTypeF at h
  split at h
  · cases h
  · cases h
  · rename_i sOpt st' hc
    have hm := schemaCore_mono hs cfg t (isPtrKind t) (deref t) st hc
    split at h <;> (cases h; exact hm)

theorem mono_regPlaceholder (st : RState) (name : String) (t : Ty) :
    Mono st (regPlaceholder st name t) := by
  refine ⟨fun x hx => mem_insertTy_of_mem _ hx, rfl, fun k hk => ?_⟩
  simp only [regPlaceholder, lookupA_insertA]
  split <;> simp_all

theorem mono_regFinal (st : RState) (name : String) (sOpt : Option JSchema) :
    Mono st (regFinal st name sOpt) := by
  refine ⟨fun x hx => hx, rfl, fun k hk => ?_⟩
  simp only [regFinal, lookupA_insertA]
  split <;> simp_all

theorem finishReg_mono {cfg : Cfg} {getsRef allowRef : Bool} {name : String}
    {sOpt : Option JSchema} {st2 : RState} {r : Option JSchema × RState}
    (h : finishReg cfg getsRef allowRef name sOpt st2 = .ok r) :
    Mono st2 r.2 := by
  unfold finishReg at h
  have hm : Mono st2 (if getsRef then regFinal st2 name sOpt else st2) := by
    split
    · exact mono_regFinal _ _ _
    · exact Mono.refl st2
  split at h <;> (cases h; exact hm)

theorem cacheHit_st {cfg : Cfg} {st : RState} {t : Ty} {name : String}
    {allowRef : Bool} {s : JSchema} {r : Option JSchema × RState}
    (h : cacheHit cfg st t name allowRef s = .ok r) : r.2 = st := by
  unfold cacheHit at h
  split at h
  · cases h
  · split at h <;> (cases h; rfl)

theorem SchemaCore_mono {sch : SchFn} (hs : SchMono sch) (cfg : Cfg)
    (st : RState) (t0 : Ty) (aR : Bool) (hint : String)
    {r : Option JSchema × RState}
    (h : SchemaCore cfg sch st t0 aR hint = .ok r) : Mono st r.2 := by
  unfold SchemaCore at h
  split at h
  · rw [cacheHit_st h]; exact Mono.refl st
  · split at h
    · cases h
    · cases h
    · rename_i sOpt st2 hc
      have hreg : Mono st (if getsRefOf cfg (deref t0) then
          regPlaceholder st (nameOf cfg t0 hint) (deref t0) else st) := by
        split
        · exact mono_regPlaceholder _ _ _
        · exact Mono.refl st
      exact (hreg.trans (SchemaFromTypeF_mono hs cfg _ _ hc)).trans
        (finishReg_mono h)

theorem SchemaBody_mono {sch : SchFn} (hs : SchMono sch) (cfg : Cfg)
    (st : RState) (t0 : Ty) (aR : Bool) (hint : String)
    {r : Option JSchema × RState}
    (h : SchemaBody cfg sch st t0 aR hint = .ok r) : Mono st r.2 := by
  unfold SchemaBody at h
  split at h
  · exact hs _ _ _ _ _ _ h
  · exact SchemaCore_mono hs cfg st t0 aR hint h

theorem SchemaR_mono (cfg : Cfg) : ∀ n : Nat, SchMono (SchemaR cfg n) := by
  intro n
  induction n with
  | zero => intro st t a h r st' hok; cases hok
  | succ n ih =>
    intro st t a h r st' hok
    exact SchemaBody_mono ih cfg st t a h hok

/-! ## Claim C8: integer bounds -/

/-- The minimum bound of the schema an isolated `Schema` call derives for a
type: `some (some 0)` = a zero minimum, `some none` = no minimum, `none` =
no schema node at all. -/
def derivedMin (cfg : Cfg) (fuel : Nat) (st : RState) (t : Ty) (aR : Bool)
    (hint : String) : Option (Option Int) :=
  match SchemaR cfg fuel st t aR hint with
  | .ok (some s, _) => some s.minimum
  | _ => none

/-- C8: for every unsigned integer width (8/16/32/64 and platform-native)
the derived schema's minimum bound is exactly zero, and for every signed
width no minimum bound is set by the width/sign rules. -/
theorem C8_unsigned_minimum_zero (cfg : Cfg) (fuel : Nat) (st : RState)
    (aR : Bool) (hint : String) (hal : st.aliases = []) :
    (∀ t ∈ [Ty.u, Ty.u8, Ty.u16, Ty.u32, Ty.u64],
      derivedMin cfg (fuel + 1) st t aR hint = some (some 0)) ∧
    (∀ t ∈ [Ty.i, Ty.i8, Ty.i16, Ty.i32, Ty.i64],
      derivedMin cfg (fuel + 1) st t aR hint = some none) := by
  constructor <;> intro t ht <;> fin_cases ht <;>
    simp [derivedMin, SchemaR, SchemaBody, SchemaCore, SchemaFromTypeF,
      schemaFromTypeF, schemaCore, kindSwitch, scalarFix, finishReg,
      getsRefOf, providerOf, textUnmOf, transformOf, origOf, nameOf, hal,
      lookupTy, deref, kindSeq, kindStruct, isPtrKind, JSchema.scalar,
      JSchema.setNullable, JSchema.typ, JSchema.minimum]

/-- Witness for C8 at a concrete registry and state. -/
theorem C8_unsigned_minimum_zero_witness :
    RState.empty.aliases = [] ∧
      derivedMin ⟨"#/", fun _ h => h, []⟩ 3 RState.empty .u32 false "x" =
        some (some 0) := by
  refine ⟨rfl, ?_⟩
  have h := (C8_unsigned_minimum_zero ⟨"#/", fun _ h => h, []⟩ 2
    RState.empty false "x" rfl).1
  exact h .u32 (by simp)

/-! ## Claim C6: sequence bounds (corrected: byte sequences are base64
strings, so the claim fails for the 8-bit unsigned element kind) -/

/-- A registry configuration with an empty environment. -/
def cfg0 : Cfg := ⟨"#/", fun t h => tyName (deref t) ++ h, []⟩

/-- The node derived for a fixed-length byte array (`[4]uint8`). -/
def c6arr : Option JSchema :=
  match SchemaR cfg0 2 RState.empty (.arr 4 .u8) false "" with
  | .ok (s, _) => s
  | _ => none

/-- The node derived for a byte slice (`[]uint8`). -/
def c6slice : Option JSchema :=
  match SchemaR cfg0 2 RState.empty (.slice .u8) false "" with
  | .ok (s, _) => s
  | _ => none

/-- Counterexample to C6 as stated: quantified over *all* element types it
fails at the 8-bit unsigned element kind, where both the fixed-length and
the variable-length sequence derive a base64 string node — no `array` type,
no item bounds, and not nullable. -/
theorem C6_counterexample :
    c6arr.map JSchema.typ = some "string" ∧
    c6arr.map JSchema.cEnc = some "base64" ∧
    c6arr.map JSchema.minItems = some none ∧
    c6arr.map JSchema.maxItems = some none ∧
    c6slice.map JSchema.typ = some "string" ∧
    c6slice.map JSchema.nullable = some false := by
  refine ⟨rfl, rfl, rfl, rfl, rfl, rfl⟩

/-- C6 (amended): for sequence types whose element kind is not the 8-bit
unsigned integer, a fixed-length sequence derives an array node with
`minItems = maxItems = declared length`, and a variable-length sequence
derives an array node with neither bound set; both sequence nodes are
nullable. -/
theorem C6_sequence_bounds (cfg : Cfg) (fuel : Nat) (st st' : RState)
    (aR : Bool) (hint : String) (len : Nat) (elem : Ty) (s s' : JSchema)
    (hal : st.aliases = [])
    (hne : elem ≠ .u8) :
    (SchemaR cfg (fuel + 1) st (.arr len elem) aR hint = .ok (some s, st') →
      s.typ = "array" ∧ s.minItems = some len ∧ s.maxItems = some len ∧
        s.nullable = true) ∧
    (SchemaR cfg (fuel + 1) st (.slice elem) aR hint = .ok (some s', st') →
      s'.typ = "array" ∧ s'.minItems = none ∧ s'.maxItems = none ∧
        s'.nullable = true) := by
  constructor <;> intro hok <;>
    simp [SchemaR, SchemaBody, SchemaCore, SchemaFromTypeF,
      schemaFromTypeF, schemaCore, kindSwitch, getsRefOf, providerOf,
      textUnmOf, transformOf, origOf, nameOf, hal, lookupTy, deref, kindSeq,
      kindStruct, isPtrKind, hne, finishReg] at hok
  · cases hc : SchemaR cfg fuel st elem true
        (tyName (Ty.arr len elem) ++ "Item") with
    | ok p =>
      obtain ⟨es, st1⟩ := p
      rw [hc] at hok
      cases hok
      exact ⟨rfl, rfl, rfl, rfl⟩
    | fatal m => rw [hc] at hok; cases hok
    | fuelOut => rw [hc] at hok; cases hok
  · cases hc : SchemaR cfg fuel st elem true
        (tyName (Ty.slice elem) ++ "Item") with
    | ok p =>
      obtain ⟨es, st1⟩ := p
      rw [hc] at hok
      cases hok
      exact ⟨rfl, rfl, rfl, rfl⟩
    | fatal m => rw [hc] at hok; cases hok
    | fuelOut => rw [hc] at hok; cases hok

/-- Witness for C6 at a concrete element type. -/
theorem C6_sequence_bounds_witness :
    RState.empty.aliases = [] ∧ Ty.str ≠ Ty.u8 ∧
    (SchemaR cfg0 2 RState.empty (.arr 4 .str) false "" =
        .ok (some (.mk "array" "" true "" "" none
          (some (JSchema.scalar "string" "" false none)) (some 4) (some 4)
          [] [] .unset [] []), RState.empty) →
      (JSchema.mk "array" "" true "" "" none
          (some (JSchema.scalar "string" "" false none)) (some 4) (some 4)
          [] [] .unset [] []).minItems = some 4) := by
  refine ⟨rfl, by decide, fun h => ?_⟩
  exact (((C6_sequence_bounds cfg0 1 RState.empty RState.empty false "" 4
    .str _ (JSchema.scalar "string" "" false none) rfl (by decide)).1 h)).2.1

/-! ## Claim C5: reverse lookups (corrected: `TypeFromRef` never checks the
prefix) -/

/-- A registry state with one registered type under the name `A`. -/
def c5st : RState := ⟨[], [("A", .strct "T")], [], []⟩

/-- Counterexample to C5 as stated: `"xyA"` does not carry the prefix
`"#/"`, yet `TypeFromRef` strips two characters unconditionally, looks up
`"A"` and returns the registered type-descriptor instead of reporting
absent. -/
theorem C5_counterexample :
    hasPre "xyA" cfg0.pfx = false ∧
    TypeFromRefF cfg0 c5st "xyA" = .ok (some (.strct "T")) := ⟨rfl, rfl⟩

/-- C5 (amended): `SchemaFromRef` reports absent for every ref that does not
carry the prefix, but `TypeFromRef` performs no prefix check: it always
strips `len(prefix)` bytes — panicking when the ref is shorter than the
prefix — and looks the remainder up, so a non-prefixed ref can still
resolve to a registered type-descriptor. -/
theorem C5_reverse_lookup (cfg : Cfg) (st : RState) (r : String) :
    (hasPre r cfg.pfx = false → SchemaFromRefF cfg st r = none) ∧
    (strLen r < strLen cfg.pfx →
      TypeFromRefF cfg st r =
        .fatal "runtime error: slice bounds out of range") ∧
    (strLen cfg.pfx ≤ strLen r →
      TypeFromRefF cfg st r =
        .ok (lookupA st.types (strDrop r (strLen cfg.pfx)))) := by
  refine ⟨fun h => ?_, fun h => ?_, fun h => ?_⟩
  · simp [SchemaFromRefF, h]
  · simp [TypeFromRefF, h]
  · simp [TypeFromRefF, Nat.not_lt.mpr h]

/-- Witness for C5 at concrete refs. -/
theorem C5_reverse_lookup_witness :
    SchemaFromRefF cfg0 c5st "zz" = none ∧
    TypeFromRefF cfg0 c5st "z" =
      .fatal "runtime error: slice bounds out of range" ∧
    TypeFromRefF cfg0 c5st "xyA" =
      .ok (lookupA c5st.types (strDrop "xyA" (strLen cfg0.pfx))) := by
  refine ⟨(C5_reverse_lookup cfg0 c5st "zz").1 (by decide),
    (C5_reverse_lookup cfg0 c5st "z").2.1 (by decide),
    (C5_reverse_lookup cfg0 c5st "xyA").2.2 (by decide)⟩

/-! ## Claim C2: duplicate names (corrected: the check consults the `seen`
set, not the registered type-descriptor) -/

/-- A naming function under which the two distinct structs `S1` and `S2`
collide on the name `A`, but `S2` is first registered as `B` under the
hint `h1`. -/
def c2n (t : Ty) (h : String) : String :=
  match deref t with
  | .strct "S2" => if h = "h1" then "B" else "A"
  | .strct "S1" => "A"
  | .strct "S3" => "A"
  | d => tyName d

def c2cfg : Cfg := ⟨"#/", c2n,
  [("S1", ⟨[], [], none, false, none⟩), ("S2", ⟨[], [], none, false, none⟩)]⟩

/-- State after `Schema(S2, true, "h1")` (registers `S2` under `B`). -/
def c2st1 : RState :=
  match SchemaR c2cfg 9 RState.empty (.strct "S2") true "h1" with
  | .ok (_, st) => st
  | _ => RState.empty

/-- State after a further `Schema(S1, true, "hx")` (registers `S1` under
`A`). -/
def c2st2 : RState :=
  match SchemaR c2cfg 9 c2st1 (.strct "S1") true "hx" with
  | .ok (_, st) => st
  | _ => RState.empty

/-- Counterexample to C2 as stated: `S1 ≠ S2` and the namer maps both to the
registered name `A`, yet the third call `Schema(S2, true, "h2")` does not
fail — because `S2` is in the `seen` set from its earlier registration
under `B`, the registry silently returns a reference to the entry that
caches `S1`'s schema. -/
theorem C2_counterexample :
    Ty.strct "S1" ≠ Ty.strct "S2" ∧
    c2cfg.namer (.strct "S1") "hx" = "A" ∧
    c2cfg.namer (.strct "S2") "h2" = "A" ∧
    lookupA c2st2.types "A" = some (.strct "S1") ∧
    SchemaR c2cfg 9 c2st2 (.strct "S2") true "h2" =
      .ok (some (JSchema.refNode "#/A"), c2st2) := by
  refine ⟨by decide, rfl, rfl, rfl, rfl⟩

/-- C2 (amended): when a ref-eligible type maps to an already-registered
name and the type itself has never been seen by the registry, `Schema`
fails fatally with the duplicate-name error; if the colliding type was
previously registered (under any name), the call instead silently returns
the entry cached under the colliding name. -/
theorem C2_duplicate_name_panic (cfg : Cfg) (n : Nat) (st : RState)
    (t0 : Ty) (aR : Bool) (hint : String)
    (hg : getsRefOf cfg (deref t0) = true)
    (hal : lookupTy st.aliases (deref t0) = none)
    (w : JSchema) (hname : lookupA st.schemas (nameOf cfg t0 hint) = some w)
    (hseen : deref t0 ∉ st.seen) :
    SchemaR cfg (n + 1) st t0 aR hint =
      .fatal (dupMsg st (nameOf cfg t0 hint) (deref t0)) := by
  simp only [SchemaR, SchemaBody, SchemaCore, hal, hg, if_true, hname,
    cacheHit]
  simp [hseen]

/-- Witness for C2's amended statement: a fresh third struct `S3` colliding
on `A` does panic. -/
theorem C2_duplicate_name_panic_witness :
    SchemaR c2cfg 9 c2st2 (.strct "S3") true "hz" =
      .fatal (dupMsg c2st2 (nameOf c2cfg (.strct "S3") "hz")
        (deref (.strct "S3"))) := by
  refine C2_duplicate_name_panic c2cfg 8 c2st2 (.strct "S3") true "hz" rfl
    rfl _ rfl (by decide)

/-! ## Claim C10: the protobuf name regex and its panic -/

theorem isPrefixOf_iff_exists {p l : List Char} :
    p.isPrefixOf l = true ↔ ∃ t, l = p ++ t := by
  induction p generalizing l with
  | nil => simp [List.isPrefixOf]
  | cons a as ih =>
    cases l with
    | nil => simp [List.isPrefixOf]
    | cons b bs =>
      simp only [List.isPrefixOf, Bool.and_eq_true, beq_iff_eq, ih,
        List.cons_append, List.cons.injEq]
      constructor
      · rintro ⟨rfl, t, rfl⟩
        exact ⟨t, rfl, rfl⟩
      · rintro ⟨t, rfl, rfl⟩
        exact ⟨rfl, t, rfl⟩

/-- The head-anchored reading of the regex tail `name\=([a-zA-Z0-9]+)\,`. -/
def HeadMatch (l : List Char) : Prop :=
  ∃ w b, l = "name=".toList ++ (w ++ ',' :: b) ∧ w ≠ [] ∧
    ∀ c ∈ w, isAlnumC c = true

theorem takeWhile_all_comma {p : Char → Bool} {w : List Char}
    (b : List Char) (hw : ∀ c ∈ w, p c = true) (hc : p ',' = false) :
    (w ++ ',' :: b).takeWhile p = w ∧
      (w ++ ',' :: b).dropWhile p = ',' :: b := by
  induction w with
  | nil => simp [List.takeWhile_cons, List.dropWhile_cons, hc]
  | cons a as ih =>
    have ha : p a = true := hw a (by simp)
    have hrest := ih (fun c hcc => hw c (by simp [hcc]))
    simp [List.takeWhile_cons, List.dropWhile_cons, ha, hrest.1, hrest.2]

theorem drop5_append (t : List Char) : ("name=".toList ++ t).drop 5 = t :=
  rfl

theorem pbMatchAt_some_iff {l : List Char} :
    (∃ w, pbMatchAt l = some w) ↔ HeadMatch l := by
  constructor
  · rintro ⟨w, hw⟩
    unfold pbMatchAt at hw
    split at hw
    · rename_i hpre
      obtain ⟨t, rfl⟩ := isPrefixOf_iff_exists.1 hpre
      rw [drop5_append] at hw
      split at hw
      · cases hw
      · rename_i hrun
        split at hw
        · rename_i tail htail
          have ht : t = List.takeWhile isAlnumC t ++ ',' :: tail := by
            conv_lhs => rw [← List.takeWhile_append_dropWhile
              (p := isAlnumC) (l := t)]
            rw [htail]
          refine ⟨t.takeWhile isAlnumC, tail, ?_,
            fun h => hrun (by rw [h]; rfl),
            fun c hcc => List.mem_takeWhile_imp hcc⟩
          conv_lhs => rw [ht]
        · cases hw
    · cases hw
  · rintro ⟨w, b, rfl, hne, hall⟩
    have htk := takeWhile_all_comma (p := isAlnumC) b hall rfl
    have hpre : ("name=".toList).isPrefixOf
        ("name=".toList ++ (w ++ ',' :: b)) = true :=
      isPrefixOf_iff_exists.2 ⟨w ++ ',' :: b, rfl⟩
    have hie : w.isEmpty = false := by
      cases w with
      | nil => exact absurd rfl hne
      | cons c cs => rfl
    refine ⟨w.asString, ?_⟩
    simp [pbMatchAt, hpre, drop5_append, htk.1, htk.2, hie]

theorem pbMatchAt_none_iff {l : List Char} :
    pbMatchAt l = none ↔ ¬ HeadMatch l := by
  rw [← pbMatchAt_some_iff]
  cases h : pbMatchAt l <;> simp [h]

/-- `pbScan` finds a match exactly when some suffix matches head-on. -/
theorem pbScan_none_iff : ∀ {l : List Char},
    pbScan l = none ↔ ¬ ∃ a s, l = a ++ s ∧ HeadMatch s := by
  intro l
  induction l with
  | nil =>
    simp only [pbScan, true_iff]
    rintro ⟨a, s, has, w, b, hs, -, -⟩
    rw [hs] at has
    exact absurd (List.append_eq_nil.1 has.symm).2 (by simp)
  | cons c rest ih =>
    simp only [pbScan]
    cases hrec : pbScan rest with
    | some n =>
      constructor
      · intro hh
        exact Option.noConfusion hh
      · intro hno
        exfalso
        have hne : ¬ (pbScan rest = none) := by simp [hrec]
        obtain ⟨a, s, hres, hm⟩ := not_not.1 (mt ih.2 hne)
        exact hno ⟨c :: a, s, by rw [hres]; rfl, hm⟩
    | none =>
      rw [pbMatchAt_none_iff]
      constructor
      · intro hnm hex
        obtain ⟨a, s, heq, hm⟩ := hex
        cases a with
        | nil =>
          simp only [List.nil_append] at heq
          exact hnm (heq ▸ hm)
        | cons a0 a' =>
          simp only [List.cons_append, List.cons.injEq] at heq
          exact (ih.1 hrec) ⟨a', s, heq.2, hm⟩
      · intro hno hm
        exact hno ⟨[], c :: rest, rfl, hm⟩

/-- The scan result of `protobufNameRegex` is absent exactly when the tag
value contains no `name=<alphanumeric>,` fragment. -/
theorem protobufExtract_none_iff (j : String) :
    protobufExtract j = none ↔ ¬ MatchesPB j := by
  unfold protobufExtract MatchesPB
  rw [pbScan_none_iff]
  apply not_congr
  constructor
  · rintro ⟨a, s, heq, w, b, hs, hne, hall⟩
    refine ⟨a, w, b, ?_, hne, hall⟩
    rw [heq, hs]
    simp [List.append_assoc]
  · rintro ⟨a, w, b, heq, hne, hall⟩
    refine ⟨a, "name=".toList ++ (w ++ ',' :: b), ?_, w, b, rfl, hne, hall⟩
    rw [heq]
    simp [List.append_assoc]

theorem asString_ne_empty {l : List Char} (h : l ≠ []) : l.asString ≠ "" := by
  intro hh
  have hd := congrArg String.data hh
  cases l with
  | nil => exact h rfl
  | cons c cs => cases hd

theorem pbMatchAt_some_ne {l : List Char} {w : String}
    (h : pbMatchAt l = some w) : w ≠ "" := by
  unfold pbMatchAt at h
  split at h
  · split at h
    · cases h
    · rename_i hrun
      split at h
      · cases h
        exact asString_ne_empty (fun hl => hrun (by rw [hl]; rfl))
      · cases h
  · cases h

theorem pbScan_some_ne : ∀ {l : List Char} {w : String},
    pbScan l = some w → w ≠ "" := by
  intro l
  induction l with
  | nil => intro w h; cases h
  | cons c rest ih =>
    intro w h
    simp only [pbScan] at h
    cases hrec : pbScan rest with
    | some n => rw [hrec] at h; cases h; exact ih hrec
    | none => rw [hrec] at h; exact pbMatchAt_some_ne h

/-- A helper: the first step of `getFields` on a struct whose fields are all
exported and non-embedded returns exactly the declared field list. -/
theorem getFieldsL_nil (cfg : Cfg) (fuel : Nat) (vis : List Ty) :
    getFieldsL cfg fuel [] vis = ([], vis) := by
  cases fuel <;> rfl

theorem le_getFieldsFuel_aux (l : List (String × StructDesc)) :
    ∀ a : Nat, a ≤ l.foldl (fun a p => a + p.2.sfields.length + 1) a := by
  induction l with
  | nil => intro a; exact Nat.le_refl a
  | cons p ps ih =>
    intro a
    calc a ≤ a + p.2.sfields.length + 1 := by omega
    _ ≤ _ := ih _

theorem getFieldsFuel_pos (cfg : Cfg) : 0 < getFieldsFuel cfg :=
  Nat.lt_of_lt_of_le (by omega) (le_getFieldsFuel_aux cfg.env 4)

theorem getFieldsTop_plain (cfg : Cfg) (nmS : String) (desc : StructDesc)
    (hdesc : lookupA cfg.env nmS = some desc)
    (hall : ∀ f ∈ desc.sfields, f.exported = true ∧ f.anon = false) :
    getFieldsTop cfg (.strct nmS) = desc.sfields := by
  obtain ⟨m, hm⟩ := Nat.exists_eq_add_of_lt (getFieldsFuel_pos cfg)
  unfold getFieldsTop
  rw [show getFieldsFuel cfg = m + 1 by omega]
  have hdir : desc.sfields.filter (fun f => f.exported && !f.anon) =
      desc.sfields :=
    List.filter_eq_self.2 (fun f hf => by
      simp [(hall f hf).1, (hall f hf).2])
  have hemb : desc.sfields.filter (fun f => f.exported && f.anon) = [] :=
    List.filter_eq_nil_iff.2 (fun f hf => by
      simp [(hall f hf).1, (hall f hf).2])
  simp [getFieldsL, structFieldsOf, descOf, hdesc, hdir, hemb,
    getFieldsL_nil, kindStruct]

/-- C10: for a non-empty `protobuf` tag the walker extracts a wire name
exactly when the tag matches `name=<alphanumeric>,` (the `protobufExtract`
scan); on a match the extracted (necessarily non-empty) submatch becomes
the wire name, and on a non-match name resolution panics with the
unchecked-index runtime error instead of falling back to the declared
field name — and that panic propagates to the public `Schema` call on a
struct containing such a field. -/
theorem C10_protobuf_regex_panic (f : StructField)
    (cfg : Cfg) (n : Nat) (st : RState) (aR : Bool) (hint nmS : String)
    (desc : StructDesc) :
    (protobufExtract (tagGet f "protobuf") = none ↔
      ¬ MatchesPB (tagGet f "protobuf")) ∧
    (tagGet f "protobuf" ≠ "" →
      protobufExtract (tagGet f "protobuf") = none →
      fieldNameReq f = .fatal pbPanicMsg) ∧
    (∀ nm, tagGet f "protobuf" ≠ "" →
      protobufExtract (tagGet f "protobuf") = some nm →
      nm ≠ "" ∧ fieldNameReq f =
        .ok (nm, !((splitComma (tagGet f "protobuf")).contains "oneof"))) ∧
    (tagGet f "protobuf" ≠ "" →
      protobufExtract (tagGet f "protobuf") = none →
      tagGet f "protobuf_oneof" = "" →
      lookupA cfg.env nmS = some desc →
      desc.sfields = [f] → f.exported = true → f.anon = false →
      desc.provider = none → desc.textUnm = false →
      lookupTy st.aliases (.strct nmS) = none →
      lookupA st.schemas (nameOf cfg (.strct nmS) hint) = none →
      SchemaR cfg (n + 1) st (.strct nmS) aR hint = .fatal pbPanicMsg) := by
  refine ⟨protobufExtract_none_iff _, fun hne hnone => ?_,
    fun nm hne hsome => ?_, ?_⟩
  · simp [fieldNameReq, hne, hnone]
  · have hnm := pbScan_some_ne hsome
    refine ⟨hnm, ?_⟩
    simp [fieldNameReq, hne, hsome, hnm]
  · intro hne hnone honeof hdesc hfields hexp hanon hprov htext halias hfresh
    have hnm : fieldNameReq f = .fatal pbPanicMsg := by
      simp [fieldNameReq, hne, hnone]
    have hfresh2 : lookupA st.schemas (cfg.namer (.strct nmS) hint) =
        none := by
      simpa [nameOf, origOf, kindSeq, deref] using hfresh
    have hpf : ∀ st0 : RState, procField (SchemaR cfg n) [f]
        (tyName (.strct nmS)) (methodsOf cfg (.strct nmS)) f
        ⟨st0, [], [], [], [], [], false⟩ = .fatal pbPanicMsg := by
      intro st0
      unfold procField
      rw [if_neg (by simp), if_neg (by simp [honeof])]
      unfold procNamed
      rw [hnm]
    have hgf : getFieldsTop cfg (.strct nmS) = [f] := by
      rw [getFieldsTop_plain cfg nmS desc hdesc
        (by rw [hfields]; rintro g hg; rw [List.mem_singleton] at hg;
            exact hg ▸ ⟨hexp, hanon⟩), hfields]
    simp [SchemaR, SchemaBody, SchemaCore, SchemaFromTypeF, schemaFromTypeF,
      schemaCore, kindSwitch, structBranch, origOf, kindSeq, deref,
      isPtrKind, getsRefOf, kindStruct, providerOf, textUnmOf, descOf,
      nameOf, halias, hfresh2, hdesc, hprov, htext, hgf, procFields, hpf]

/-- A field whose protobuf tag carries a snake_case wire name: the
underscore is outside `[a-zA-Z0-9]`, so the regex cannot match. -/
def f10 : StructField :=
  ⟨"Name", .str, [("protobuf", "varint,2,opt,name=foo_bar,proto3")], true,
    false⟩

def cfg10 : Cfg :=
  ⟨"#/", fun t _ => tyName (deref t), [("S", ⟨[f10], [], none, false, none⟩)]⟩

/-- Witness for C10: on the concrete tag the scan fails, field-name
resolution panics, and so does the public `Schema` call. -/
theorem C10_protobuf_regex_panic_witness :
    protobufExtract "varint,2,opt,name=foo_bar,proto3" = none ∧
    fieldNameReq f10 = .fatal pbPanicMsg ∧
    SchemaR cfg10 4 RState.empty (.strct "S") false "h" =
      .fatal pbPanicMsg := by
  refine ⟨rfl, ?_, ?_⟩
  · exact (C10_protobuf_regex_panic f10 cfg10 3 RState.empty false "h" "S"
      ⟨[f10], [], none, false, none⟩).2.1 (by decide) rfl
  · exact (C10_protobuf_regex_panic f10 cfg10 3 RState.empty false "h" "S"
      ⟨[f10], [], none, false, none⟩).2.2.2 (by decide) rfl rfl rfl rfl rfl
      rfl rfl rfl rfl rfl

/-! ## Claim C9: pointer fields with omitempty -/

theorem JSchema.nullable_setNullable (b : Bool) (s : JSchema) :
    (JSchema.setNullable b s).nullable = b := by cases s; rfl

/-- The nullability of the schema an isolated `Schema` call derives. -/
def derivedNullable (cfg : Cfg) (fuel : Nat) (st : RState) (t : Ty)
    (aR : Bool) (hint : String) : Option Bool :=
  match SchemaR cfg fuel st t aR hint with
  | .ok (some s, _) => some s.nullable
  | _ => none

/-- C9: a pointer-typed field whose json tag contains `omitempty` and which
carries no `nullable:"true"` override is emitted with a non-nullable
schema, even though pointer-typed scalars are otherwise nullable by
default (second conjunct). -/
theorem C9_omitempty_pointer_non_nullable (cfg : Cfg) (n m : Nat)
    (st st' : RState) (hint hint2 nmS nmF : String) (desc : StructDesc)
    (f : StructField) (tau : Ty) (rq aR2 : Bool) (s : JSchema)
    (hal : st.aliases = [])
    (hdesc : lookupA cfg.env nmS = some desc)
    (hfields : desc.sfields = [f])
    (hexp : f.exported = true) (hanon : f.anon = false)
    (hptr : f.ftype = .ptr tau)
    (honeof : tagGet f "protobuf_oneof" = "")
    (hjson : containsSub (tagGet f "json") "omitempty" = true)
    (hnul : tagGet f "nullable" ≠ "true")
    (hhid : tagGet f "hidden" = "")
    (hdep : tagGet f "dependentRequired" = "")
    (hfname : f.fname ≠ "_")
    (hnm : fieldNameReq f = .ok (nmF, rq))
    (hdash : nmF ≠ "-")
    (hprov : desc.provider = none) (htext : desc.textUnm = false)
    (htr : desc.transform = none)
    (hfresh : lookupA st.schemas (nameOf cfg (.strct nmS) hint) = none)
    (hok : SchemaR cfg (n + 1) st (.strct nmS) false hint =
      .ok (some s, st')) :
    (∀ v, lookupA s.props nmF = some v → v.nullable = false) ∧
    (∀ ts ∈ [Ty.bool, Ty.i32, Ty.str, Ty.f64],
      derivedNullable cfg (m + 1) st (.ptr ts) aR2 hint2 = some true) := by
  constructor
  ·
    intro v hv
    have hfresh2 : lookupA st.schemas (cfg.namer (.strct nmS) hint) =
        none := by
      simpa [nameOf, origOf, kindSeq, deref] using hfresh
    have hgf : getFieldsTop cfg (.strct nmS) = [f] := by
      rw [getFieldsTop_plain cfg nmS desc hdesc
        (by rw [hfields]; rintro g hg; rw [List.mem_singleton] at hg;
            exact hg ▸ ⟨hexp, hanon⟩), hfields]
    have hmark : findMarker cfg (.strct nmS) = none := by
      simp [findMarker, descOf, hdesc, hfields, List.find?, hfname]
    have hhidb : boolTagF f "hidden" = .ok false := by
      simp [boolTagF, hhid]
    have htrim : trimStr (tagGet f "dependentRequired") = "" := by
      rw [hdep]; rfl
    have hrd : ∀ acc, recordDep f nmF acc = acc := by
      intro acc
      simp [recordDep, htrim]
    simp [SchemaR, SchemaBody, SchemaCore, hal, lookupTy, hfresh2,
      nameOf, origOf, kindSeq, deref, getsRefOf, kindStruct, providerOf,
      textUnmOf, descOf, hdesc, hprov, htext] at hok
    simp [SchemaFromTypeF, schemaFromTypeF, schemaCore, providerOf, descOf,
      hdesc, hprov, textUnmOf, htext, deref, isPtrKind, kindSwitch,
      structBranch, hgf, procFields, transformOf, htr, finishReg] at hok
    unfold procField at hok
    rw [if_neg (by simp), if_neg (by simp [honeof])] at hok
    unfold procNamed at hok
    rw [hnm] at hok
    simp only [if_neg hdash, hhidb, hrd, skipAcc] at hok
    cases hrq : reqOverride f rq with
    | fatal msg => rw [hrq] at hok; cases hok
    | fuelOut => rw [hrq] at hok; cases hok
    | ok req1 =>
      rw [hrq] at hok
      simp only [Bool.false_eq_true, if_false] at hok
      unfold procEmit humaFieldSchema at hok
      simp only [] at hok
      cases hcall : SchemaR cfg n
          (regPlaceholder st (cfg.namer (.strct nmS) hint) (.strct nmS))
          f.ftype true (tyName (.strct nmS) ++ f.fname ++ "Struct") with
      | fatal msg => rw [hcall] at hok; cases hok
      | fuelOut => rw [hcall] at hok; cases hok
      | ok p =>
        obtain ⟨fsOpt, stw⟩ := p
        rw [hcall] at hok
        cases fsOpt with
        | none =>
          simp only [checkDependent, depErrs, sortStrs, List.map_nil,
            List.flatten_nil, if_pos rfl, finishStruct, apOverride,
            Bool.not_false, hmark, if_true, finishReg] at hok
          cases hok
          cases hv
        | some fs0 =>
          simp only [emitField, checkDependent, depErrs, sortStrs,
            List.map_nil, List.flatten_nil, if_pos rfl, finishStruct,
            apOverride, Bool.not_false, hmark, if_true, finishReg,
            appendIf, insertA] at hok
          cases hok
          simp only [JSchema.props, lookupA, if_pos rfl] at hv
          cases hv
          have hadj : adjustField f fs0 = JSchema.setNullable false fs0 := by
            unfold adjustField
            have hc1 : ¬((tagGet f "protobuf" ≠ "" &&
                decide (f.ftype = Ty.i64)) = true) := by
              simp [hptr]
            have hc2 : (isPtrKind f.ftype &&
                containsSub (tagGet f "json") "omitempty" &&
                decide (tagGet f "nullable" ≠ "true")) = true := by
              rw [hptr]
              simp [isPtrKind, hjson, hnul]
            rw [if_neg hc1, if_pos hc2]
          rw [hadj]
          exact JSchema.nullable_setNullable false fs0
  · intro ts hts
    fin_cases hts <;>
      simp [derivedNullable, SchemaR, SchemaBody, SchemaCore,
        SchemaFromTypeF, schemaFromTypeF, schemaCore, kindSwitch, scalarFix,
        finishReg, getsRefOf, providerOf, textUnmOf, transformOf, origOf,
        nameOf, hal, lookupTy, deref, kindSeq, kindStruct, isPtrKind,
        JSchema.scalar, JSchema.setNullable, JSchema.nullable, JSchema.typ]

/-- A pointer-to-string field with `json:"opt,omitempty"` and no override. -/
def f9 : StructField := ⟨"Opt", .ptr .str, [("json", "opt,omitempty")], true, false⟩

def cfg9 : Cfg :=
  ⟨"#/", fun t _ => tyName (deref t), [("P", ⟨[f9], [], none, false, none⟩)]⟩

def s9 : JSchema :=
  match SchemaR cfg9 3 RState.empty (.strct "P") false "h" with
  | .ok (some s, _) => s
  | _ => JSchema.empty

def st9 : RState :=
  match SchemaR cfg9 3 RState.empty (.strct "P") false "h" with
  | .ok (_, st) => st
  | _ => RState.empty

/-- Witness for C9 at a concrete struct. -/
theorem C9_omitempty_pointer_non_nullable_witness :
    (lookupA s9.props "opt").map JSchema.nullable = some false ∧
    derivedNullable cfg9 3 RState.empty (.ptr .str) false "h2" = some true := by
  have h := C9_omitempty_pointer_non_nullable cfg9 2 2 RState.empty st9 "h"
    "h2" "P" "opt" ⟨[f9], [], none, false, none⟩ f9 .str false false s9 rfl
    rfl rfl rfl rfl rfl rfl rfl (by decide) rfl rfl (by decide) rfl
    (by decide) rfl rfl rfl rfl rfl
  refine ⟨?_, h.2 .str (by simp)⟩
  have hl : lookupA s9.props "opt" =
      some ((lookupA s9.props "opt").getD JSchema.empty) := rfl
  rw [hl, Option.map_some']
  rw [h.1 _ hl]

/-! ## Claim C4: reference round-trips -/


theorem deref_deref (t : Ty) : deref (deref t) = deref t := by
  induction t with
  | ptr e ih => simpa [deref] using ih
  | _ => rfl

theorem deref_origOf (t0 : Ty) : deref (origOf t0) = deref t0 := by
  unfold origOf
  split
  · exact deref_deref t0
  · rfl

theorem structBranch_ok_some {sch : SchFn} {cfg : Cfg} {oriT t : Ty}
    {st : RState} {r : Option JSchema × RState}
    (h : structBranch sch cfg oriT t st = .ok r) : r.1.isSome = true := by
  unfold structBranch at h
  split at h
  · cases h
  · cases h
  · split at h
    · cases h
    · unfold finishStruct at h
      split at h
      · cases h
      · cases h
      · cases h
        rfl

/-- For a ref-eligible type the walker never returns a nil schema. -/
theorem SchemaFromTypeF_getsRef_some {sch : SchFn} {cfg : Cfg} {t0 : Ty}
    {st1 : RState} {r : Option JSchema × RState}
    (hg : getsRefOf cfg (deref t0) = true)
    (hok : SchemaFromTypeF sch cfg (origOf t0) st1 = .ok r) :
    r.1.isSome = true := by
  unfold SchemaFromTypeF at hok
  cases hc : schemaFromTypeF sch cfg (origOf t0) st1 with
  | fatal m => rw [hc] at hok; cases hok
  | fuelOut => rw [hc] at hok; cases hok
  | ok p =>
    rw [hc] at hok
    have hp1 : p.1.isSome = true := by
      obtain ⟨sOpt, st2⟩ := p
      unfold schemaFromTypeF schemaCore at hc
      rw [deref_origOf t0] at hc
      cases hdt : deref t0 <;> rw [hdt] at hc hg <;>
        simp only [getsRefOf, kindStruct, textUnmOf, Bool.false_and,
          Bool.and_false, Bool.true_and, Bool.and_true] at hg <;>
        try cases hg
      · rename_i nm
        simp only [Bool.and_eq_true, Bool.not_eq_true'] at hg
        obtain ⟨⟨-, h2⟩, h3⟩ := hg
        have hpn : providerOf cfg (.strct nm) = none := by
          cases hp : providerOf cfg (.strct nm) with
          | none => rfl
          | some v => rw [hp] at h2; cases h2
        rw [hpn] at hc
        rw [if_neg (by
          rw [show textUnmOf cfg (.strct nm) = (descOf cfg nm).textUnm
            from rfl, h3]
          simp)] at hc
        simp only [kindSwitch] at hc
        cases hk : structBranch sch cfg (origOf t0) (.strct nm) st1 with
        | fatal m => rw [hk] at hc; cases hc
        | fuelOut => rw [hk] at hc; cases hc
        | ok q =>
          rw [hk] at hc
          cases hc
          have hsome := structBranch_ok_some hk
          cases hq : q.1 with
          | none => rw [hq] at hsome; cases hsome
          | some w => rfl
      · rw [show providerOf cfg Ty.urlT = none from rfl] at hc
        cases hc
        rfl
    cases htr : transformOf cfg (deref (origOf t0)) with
    | some tr =>
      rw [htr] at hok
      cases hok
      cases hp : p.1 with
      | none => rw [hp] at hp1; cases hp1
      | some w => simp [hp]
    | none =>
      rw [htr] at hok
      cases hok
      exact hp1

/-- Inversion of a successful `Schema` call on a ref-eligible,
alias-free type: the name is registered, the type is seen, aliases are
untouched, and the returned node is a reference (when allowed) or the
cached full node (when not). -/
theorem SchemaR_getsRef_ok (cfg : Cfg) (n : Nat) (st : RState) (t0 : Ty)
    (aR : Bool) (hint : String) (r : Option JSchema) (st' : RState)
    (hg : getsRefOf cfg (deref t0) = true)
    (hal : lookupTy st.aliases (deref t0) = none)
    (hok : SchemaR cfg n st t0 aR hint = .ok (r, st')) :
    (lookupA st'.schemas (nameOf cfg t0 hint)).isSome = true ∧
    deref t0 ∈ st'.seen ∧ st'.aliases = st.aliases ∧
    (aR = true → r = some (JSchema.refNode (cfg.pfx ++ nameOf cfg t0 hint))) ∧
    (aR = false → ∃ w, r = some w ∧
      lookupA st'.schemas (nameOf cfg t0 hint) = some w) := by
  cases n with
  | zero => cases hok
  | succ n =>
    cases hcache : lookupA st.schemas (nameOf cfg t0 hint) with
    | some w =>
      simp only [SchemaR, SchemaBody, SchemaCore, hal, hg, if_true, hcache,
        cacheHit] at hok
      split at hok
      · cases hok
      · rename_i hseen
        simp only [Bool.not_eq_true', decide_eq_false_iff_not,
          Decidable.not_not] at hseen
        split at hok
        · rename_i haR
          cases hok
          exact ⟨by rw [hcache]; rfl, hseen, rfl, fun _ => rfl,
            fun hfalse => absurd haR (by simp [hfalse])⟩
        · rename_i haR
          cases hok
          exact ⟨by rw [hcache]; rfl, hseen, rfl,
            fun htrue => absurd htrue haR, fun _ => ⟨w, rfl, hcache⟩⟩
    | none =>
      simp only [SchemaR, SchemaBody, SchemaCore, hal, hg, if_true,
        hcache] at hok
      cases hw : SchemaFromTypeF (SchemaR cfg n) cfg (origOf t0)
          (regPlaceholder st (nameOf cfg t0 hint) (deref t0)) with
      | fatal m => rw [hw] at hok; cases hok
      | fuelOut => rw [hw] at hok; cases hok
      | ok p =>
        obtain ⟨sOpt, st2⟩ := p
        rw [hw] at hok
        have hmono := SchemaFromTypeF_mono (SchemaR_mono cfg n) cfg _ _ hw
        have hseen2 : deref t0 ∈ st2.seen :=
          hmono.1 _ (mem_insertTy_self _ _)
        have hali2 : st2.aliases = st.aliases := hmono.2.1
        have hsome := SchemaFromTypeF_getsRef_some hg hw
        obtain ⟨w0, hw0⟩ := Option.isSome_iff_exists.1 hsome
        simp only [finishReg, Bool.true_and, if_true] at hok
        split at hok
        · rename_i haR
          cases hok
          exact ⟨by simp [regFinal, lookupA_insertA], hseen2, hali2,
            fun _ => rfl, fun hfalse => absurd haR (by simp [hfalse])⟩
        · rename_i haR
          cases hok
          refine ⟨by simp [regFinal, lookupA_insertA], hseen2, hali2,
            fun htrue => absurd htrue haR, fun _ => ⟨w0, hw0, ?_⟩⟩
          have hr : r = some w0 := hw0
          simp [regFinal, lookupA_insertA, hr]

theorem toList_append (p s : String) :
    (p ++ s).toList = p.toList ++ s.toList := by
  cases p; cases s; rfl

theorem hasPre_append (p s : String) : hasPre (p ++ s) p = true := by
  unfold hasPre
  rw [toList_append]
  exact isPrefixOf_iff_exists.2 ⟨s.toList, rfl⟩

theorem strDrop_append (p s : String) : strDrop (p ++ s) (strLen p) = s := by
  unfold strDrop strLen
  rw [toList_append, List.drop_left]
  cases s; rfl

/-- C4: for a ref-eligible type, a first successful `Schema` call with
`allowRef = true` returns a reference node carrying `prefix ++ name`; a
second `allowRef = true` call returns the identical reference node and
leaves the state unchanged, and `SchemaFromRef` applied to that reference
string returns exactly the full node that an `allowRef = false` call
returns. -/
theorem C4_reference_roundtrip (cfg : Cfg) (n m k : Nat) (st st1 : RState)
    (t0 : Ty) (hint : String) (r1 : Option JSchema)
    (hg : getsRefOf cfg (deref t0) = true)
    (hal : lookupTy st.aliases (deref t0) = none)
    (h1 : SchemaR cfg n st t0 true hint = .ok (r1, st1)) :
    r1 = some (JSchema.refNode (cfg.pfx ++ nameOf cfg t0 hint)) ∧
    SchemaR cfg (m + 1) st1 t0 true hint = .ok (r1, st1) ∧
    ∃ w, SchemaR cfg (k + 1) st1 t0 false hint = .ok (some w, st1) ∧
      SchemaFromRefF cfg st1 (cfg.pfx ++ nameOf cfg t0 hint) = some w := by
  obtain ⟨hdom, hseen, hali, href, -⟩ :=
    SchemaR_getsRef_ok cfg n st t0 true hint r1 st1 hg hal h1
  obtain ⟨w, hw⟩ := Option.isSome_iff_exists.1 hdom
  have hr1 := href rfl
  have hal1 : lookupTy st1.aliases (deref t0) = none := by
    rw [hali]; exact hal
  refine ⟨hr1, ?_, w, ?_, ?_⟩
  · simp only [SchemaR, SchemaBody, SchemaCore, hal1, hg, if_true, hw,
      cacheHit]
    simp [hseen, hr1]
  · simp only [SchemaR, SchemaBody, SchemaCore, hal1, hg, if_true, hw,
      cacheHit]
    simp [hseen]
  · simp [SchemaFromRefF, hasPre_append, strDrop_append, hw]

/-- The first registering call for the concrete struct `T`. -/
def c4call : Res (Option JSchema × RState) :=
  SchemaR cfg0 3 RState.empty (.strct "T") true "hz"

def c4r1 : Option JSchema :=
  match c4call with
  | .ok p => p.1
  | _ => none

def c4st1 : RState :=
  match c4call with
  | .ok p => p.2
  | _ => RState.empty

/-- Witness: the round-trip on a concrete empty struct `T`. -/
theorem C4_reference_roundtrip_witness :
    c4r1 = some (JSchema.refNode (cfg0.pfx ++ nameOf cfg0 (.strct "T") "hz")) ∧
    SchemaR cfg0 (0 + 1) c4st1 (.strct "T") true "hz" = .ok (c4r1, c4st1) ∧
    ∃ w, SchemaR cfg0 (0 + 1) c4st1 (.strct "T") false "hz" =
        .ok (some w, c4st1) ∧
      SchemaFromRefF cfg0 c4st1 (cfg0.pfx ++ nameOf cfg0 (.strct "T") "hz") =
        some w :=
  C4_reference_roundtrip cfg0 3 0 0 RState.empty c4st1 (.strct "T") "hz" c4r1
    rfl rfl rfl

/-! ## Claim C3: tagged-union (oneof) alternatives -/

/-- C3 (amended): for a record whose single field carries a
`protobuf_oneof` tag and whose original type has exactly the qualifying
accessors `GetFoo` and `GetBar` (one result, suffix not a declared field),
the derived object schema has exactly two "one of" alternatives — each an
`object` with the single lower-camel property (`foo`, `bar`) that is also
its sole required name — and the owning object leaves
`additionalProperties` UNSET (the `ignoreAdditionalProperties` flag skips
the `false` default), it does not disallow additional properties as the
claim states. -/
theorem C3_oneof_two_alternatives (cfg : Cfg) (n : Nat)
    (st st' stw1 stw2 : RState) (hint nmS : String) (desc : StructDesc)
    (f : StructField) (tau1 tau2 : Ty) (s s1 s2 : JSchema)
    (hal : st.aliases = [])
    (hdesc : lookupA cfg.env nmS = some desc)
    (hfields : desc.sfields = [f])
    (hexp : f.exported = true) (hanon : f.anon = false)
    (honeof : tagGet f "protobuf_oneof" ≠ "")
    (hmeth : desc.methods = [⟨"GetFoo", 1, tau1, false⟩,
      ⟨"GetBar", 1, tau2, false⟩])
    (hnf1 : ("GetFoo" : String) ≠ "Get" ++ f.fname)
    (hnf2 : ("GetBar" : String) ≠ "Get" ++ f.fname)
    (hprov : desc.provider = none) (htext : desc.textUnm = false)
    (htr : desc.transform = none)
    (hfresh : lookupA st.schemas (nameOf cfg (.strct nmS) hint) = none)
    (hc1 : SchemaR cfg n
        (regPlaceholder st (cfg.namer (.strct nmS) hint) (.strct nmS))
        tau1 true (tyName (.strct nmS) ++ tyName tau1 ++ "Struct") =
      .ok (some s1, stw1))
    (hc2 : SchemaR cfg n stw1 tau2 true
        (tyName (.strct nmS) ++ tyName tau2 ++ "Struct") =
      .ok (some s2, stw2))
    (hok : SchemaR cfg (n + 1) st (.strct nmS) false hint =
      .ok (some s, st')) :
    s.oneOf.map JSchema.typ = ["object", "object"] ∧
    s.oneOf.map JSchema.props = [[("foo", s1)], [("bar", s2)]] ∧
    s.oneOf.map JSchema.required = [["foo"], ["bar"]] ∧
    s.addProps = AddProps.unset := by
  have hfresh2 : lookupA st.schemas (cfg.namer (.strct nmS) hint) =
      none := by
    simpa [nameOf, origOf, kindSeq, deref] using hfresh
  have hgf : getFieldsTop cfg (.strct nmS) = [f] := by
    rw [getFieldsTop_plain cfg nmS desc hdesc
      (by rw [hfields]; rintro g hg; rw [List.mem_singleton] at hg;
          exact hg ▸ ⟨hexp, hanon⟩), hfields]
  have hms : methodsOf cfg (.strct nmS) = [⟨"GetFoo", 1, tau1, false⟩,
      ⟨"GetBar", 1, tau2, false⟩] := by
    simp [methodsOf, deref, descOf, hdesc, hmeth, List.filter]
  simp [SchemaR, SchemaBody, SchemaCore, hal, lookupTy, hfresh2,
    nameOf, origOf, kindSeq, deref, getsRefOf, kindStruct, providerOf,
    textUnmOf, descOf, hdesc, hprov, htext] at hok
  simp [SchemaFromTypeF, schemaFromTypeF, schemaCore, providerOf, descOf,
    hdesc, hprov, textUnmOf, htext, deref, isPtrKind, kindSwitch,
    structBranch, hgf, procFields, transformOf, htr, hms] at hok
  unfold procField at hok
  rw [if_neg (by simp), if_pos honeof] at hok
  simp only [procOneof] at hok
  have hp1 : hasPre "GetFoo" "Get" = true := by decide
  have hp2 : hasPre "GetBar" "Get" = true := by decide
  have ha1 : accessorName "GetFoo" = "foo" := by decide
  have ha2 : accessorName "GetBar" = "bar" := by decide
  simp [hp1, hp2, ha1, ha2, hnf1, hnf2, hc1, hc2, checkDependent, depErrs,
    sortStrs, finishStruct, apOverride, finishReg, regFinal,
    scalarFix] at hok
  obtain ⟨hs, -⟩ := hok
  subst hs
  simp [JSchema.typ, JSchema.props, JSchema.required, JSchema.addProps,
    JSchema.oneOf]

/-- A discriminator field tagged `protobuf_oneof:"kind"`. -/
def f3 : StructField :=
  ⟨"Kind", .str, [("protobuf_oneof", "kind")], true, false⟩

/-- Owner struct `O` with accessors `GetFoo → string`, `GetBar → int32`. -/
def desc3 : StructDesc :=
  ⟨[f3], [⟨"GetFoo", 1, .str, false⟩, ⟨"GetBar", 1, .i32, false⟩],
    none, false, none⟩

def cfg3 : Cfg := ⟨"#/", fun t h => tyName (deref t) ++ h, [("O", desc3)]⟩

def s3 : JSchema :=
  match SchemaR cfg3 3 RState.empty (.strct "O") false "h" with
  | .ok (some s, _) => s
  | _ => JSchema.empty

/-- Counterexample to C3 as stated: the owner schema for `O` has the two
alternatives, yet its `additionalProperties` policy is left unset — it is
not the disallowing `false` the claim asserts. -/
theorem C3_counterexample :
    s3.oneOf.map JSchema.typ = ["object", "object"] ∧
    s3.oneOf.map (fun a => (JSchema.props a).map Prod.fst) =
      [["foo"], ["bar"]] ∧
    s3.oneOf.map JSchema.required = [["foo"], ["bar"]] ∧
    s3.addProps = AddProps.unset ∧ s3.addProps ≠ AddProps.abool false :=
  ⟨rfl, rfl, rfl, rfl, fun h => nomatch h⟩

def c3inner1 : Res (Option JSchema × RState) :=
  SchemaR cfg3 2
    (regPlaceholder RState.empty (cfg3.namer (.strct "O") "h") (.strct "O"))
    .str true (tyName (.strct "O") ++ tyName .str ++ "Struct")

def c3s1 : JSchema :=
  match c3inner1 with
  | .ok (some s, _) => s
  | _ => JSchema.empty

def c3stw1 : RState :=
  match c3inner1 with
  | .ok (_, st) => st
  | _ => RState.empty

def c3inner2 : Res (Option JSchema × RState) :=
  SchemaR cfg3 2 c3stw1 .i32 true (tyName (.strct "O") ++ tyName .i32 ++ "Struct")

def c3s2 : JSchema :=
  match c3inner2 with
  | .ok (some s, _) => s
  | _ => JSchema.empty

def c3stw2 : RState :=
  match c3inner2 with
  | .ok (_, st) => st
  | _ => RState.empty

def st3 : RState :=
  match SchemaR cfg3 3 RState.empty (.strct "O") false "h" with
  | .ok (_, st) => st
  | _ => RState.empty

/-- Witness for C3 (amended) at the concrete owner struct `O`. -/
theorem C3_oneof_two_alternatives_witness :
    s3.oneOf.map JSchema.typ = ["object", "object"] ∧
    s3.oneOf.map JSchema.props = [[("foo", c3s1)], [("bar", c3s2)]] ∧
    s3.oneOf.map JSchema.required = [["foo"], ["bar"]] ∧
    s3.addProps = AddProps.unset :=
  C3_oneof_two_alternatives cfg3 2 RState.empty st3 c3stw1 c3stw2 "h" "O"
    desc3 f3 .str .i32 s3 c3s1 c3s2 rfl rfl rfl rfl rfl (by decide) rfl
    (by decide) (by decide) rfl rfl rfl rfl rfl rfl rfl

/-! ## Claim C7: aggregated dependent-field errors -/

theorem listInfixB_iff_decomp (needle : List Char) :
    ∀ hay, listInfixB needle hay = true ↔ ∃ p q, hay = p ++ needle ++ q := by
  intro hay
  induction hay with
  | nil =>
    simp only [listInfixB, List.isEmpty_iff]
    constructor
    · rintro rfl; exact ⟨[], [], rfl⟩
    · rintro ⟨p, q, h⟩
      exact (List.append_eq_nil.1 (List.append_eq_nil.1 h.symm).1).2
  | cons c rest ih =>
    simp only [listInfixB, Bool.or_eq_true, isPrefixOf_iff_exists, ih]
    constructor
    · rintro (⟨t, ht⟩ | ⟨p, q, hpq⟩)
      · exact ⟨[], t, by simpa using ht⟩
      · exact ⟨c :: p, q, by simp [hpq]⟩
    · rintro ⟨p, q, hpq⟩
      cases p with
      | nil => exact Or.inl ⟨q, by simpa using hpq⟩
      | cons a p2 =>
        rw [List.cons_append, List.cons_append] at hpq
        cases hpq
        exact Or.inr ⟨p2, q, rfl⟩

theorem mem_insortStr {y x : String} : ∀ {l : List String},
    y ∈ insortStr x l ↔ y = x ∨ y ∈ l := by
  intro l
  induction l with
  | nil => simp [insortStr]
  | cons a as ih =>
    simp only [insortStr]
    split
    · simp
    · simp [ih]
      tauto

theorem mem_sortStrs {y : String} : ∀ {l : List String},
    y ∈ sortStrs l ↔ y ∈ l := by
  intro l
  induction l with
  | nil => simp [sortStrs]
  | cons a as ih => simp [sortStrs, mem_insortStr, ih]

theorem lookupA_mem_keys {α : Type} {l : List (String × α)} {k : String}
    {v : α} (h : lookupA l k = some v) : k ∈ l.map Prod.fst := by
  induction l with
  | nil => cases h
  | cons a as ih =>
    simp only [lookupA] at h
    split at h
    · rename_i hk
      simp [← hk]
    · simp [ih h]

theorem mem_keys_lookupA_isSome {α : Type} {l : List (String × α)}
    {k : String} (h : k ∈ l.map Prod.fst) : (lookupA l k).isSome = true := by
  induction l with
  | nil => simp at h
  | cons a as ih =>
    simp only [lookupA]
    split
    · rfl
    · rename_i hk
      simp only [List.map_cons, List.mem_cons] at h
      rcases h with h | h
      · exact absurd h.symm hk
      · exact ih h

theorem depErrs1_eq_nil {props : List (String × JSchema)} {fld : String}
    {deps : List String} :
    depErrs1 props fld deps = [] ↔
      ∀ d ∈ deps, (lookupA props d).isSome = true := by
  simp only [depErrs1, List.filterMap_eq_nil_iff]
  refine forall_congr' fun d => forall_congr' fun _ => ?_
  split
  · rename_i h; simp [h]
  · rename_i h; simp [Bool.not_eq_true] at h ⊢; simp [h]

theorem depErrs_eq_nil {props : List (String × JSchema)}
    {depMap : List (String × List String)} :
    depErrs props depMap = [] ↔
      ∀ fld ds, lookupA depMap fld = some ds →
        ∀ d ∈ ds, (lookupA props d).isSome = true := by
  simp only [depErrs, List.flatten_eq_nil_iff, List.mem_map]
  constructor
  · rintro h fld ds hds d hd
    have hmem : fld ∈ sortStrs (depMap.map Prod.fst) :=
      mem_sortStrs.2 (lookupA_mem_keys hds)
    have := h _ ⟨fld, hmem, rfl⟩
    rw [hds] at this
    exact depErrs1_eq_nil.1 this d hd
  · rintro h x ⟨fld, hfld, rfl⟩
    have hkey : fld ∈ depMap.map Prod.fst := mem_sortStrs.1 hfld
    obtain ⟨ds, hds⟩ :=
      Option.isSome_iff_exists.1 (mem_keys_lookupA_isSome hkey)
    rw [hds]
    exact depErrs1_eq_nil.2 (h fld ds hds)

theorem flatten_map_decomp {f : String → List Char} {x : String}
    {as : List String} (h : x ∈ as) :
    ∃ u v, (as.map f).flatten = u ++ f x ++ v := by
  induction as with
  | nil => cases h
  | cons a as ih =>
    rcases List.mem_cons.1 h with rfl | h2
    · exact ⟨[], (as.map f).flatten, by simp⟩
    · obtain ⟨u, v, hv⟩ := ih h2
      exact ⟨f a ++ u, v, by simp [hv]⟩

theorem intercalate_go_toList (s : String) : ∀ (l : List String)
    (acc : String), (String.intercalate.go acc s l).toList =
      acc.toList ++ (l.map (fun a => s.toList ++ a.toList)).flatten := by
  intro l
  induction l with
  | nil => intro acc; simp [String.intercalate.go]
  | cons a as ih =>
    intro acc
    rw [show String.intercalate.go acc s (a :: as) =
      String.intercalate.go (acc ++ s ++ a) s as from rfl, ih]
    simp [toList_append]

theorem mem_intercalate_decomp {x : String} {l : List String} (h : x ∈ l)
    (s : String) : ∃ p q,
      (String.intercalate s l).toList = p ++ x.toList ++ q := by
  cases l with
  | nil => cases h
  | cons a as =>
    rw [show String.intercalate s (a :: as) =
      String.intercalate.go a s as from rfl, intercalate_go_toList]
    rcases List.mem_cons.1 h with rfl | h2
    · exact ⟨[], _, rfl⟩
    · obtain ⟨u, v, hv⟩ := flatten_map_decomp (f := fun b => s.toList ++
        b.toList) h2
      refine ⟨a.toList ++ u ++ s.toList, v, by
        simp only [List.append_assoc, String.toList] at hv ⊢
        rw [hv]⟩

theorem mem_depErrs {props : List (String × JSchema)}
    {depMap : List (String × List String)} {fld d : String}
    {ds : List String} (hds : lookupA depMap fld = some ds) (hd : d ∈ ds)
    (hmiss : lookupA props d = none) :
    depErrMsg fld d ∈ depErrs props depMap := by
  unfold depErrs
  rw [List.mem_flatten]
  refine ⟨depErrs1 props fld ds, ?_, ?_⟩
  · rw [List.mem_map]
    refine ⟨fld, mem_sortStrs.2 (lookupA_mem_keys hds), ?_⟩
    simp [hds]
  · unfold depErrs1
    rw [List.mem_filterMap]
    exact ⟨d, hd, by rw [hmiss]; rfl⟩

/-- C7: after the full field pass (`procFields` succeeded with
accumulator `acc`), the dependent check passes exactly when every name in
every `dependentRequired` entry is an emitted property (first conjunct),
in which case derivation proceeds with no error (second); otherwise the
struct branch fails fatally with one aggregated message that contains the
per-dependent error text for EVERY missing dependent, not just the first
(third). -/
theorem C7_dependent_errors (sch : SchFn) (cfg : Cfg) (oriT t : Ty)
    (st : RState) (acc : FAcc)
    (hacc : procFields sch (getFieldsTop cfg t) (tyName t)
        (methodsOf cfg oriT) (getFieldsTop cfg t)
        ⟨st, [], [], [], [], [], false⟩ = .ok acc) :
    (checkDependent acc.props acc.depMap = none ↔
      ∀ fld ds, lookupA acc.depMap fld = some ds →
        ∀ d ∈ ds, (lookupA acc.props d).isSome = true) ∧
    (checkDependent acc.props acc.depMap = none →
      structBranch sch cfg oriT t st = finishStruct cfg t acc) ∧
    (∀ m, checkDependent acc.props acc.depMap = some m →
      structBranch sch cfg oriT t st = .fatal m ∧
      ∀ fld ds d, lookupA acc.depMap fld = some ds → d ∈ ds →
        lookupA acc.props d = none →
        containsSub m (depErrMsg fld d) = true) := by
  refine ⟨?_, ?_, ?_⟩
  · simp only [checkDependent]
    split
    · rename_i h
      exact iff_of_true rfl (depErrs_eq_nil.1 h)
    · rename_i h
      exact iff_of_false (by simp) fun hall => h (depErrs_eq_nil.2 hall)
  · intro hnone
    unfold structBranch
    rw [hacc]
    simp only [hnone]
  · intro m hm
    constructor
    · unfold structBranch
      rw [hacc]
      simp only [hm]
    · intro fld ds d hds hd hmiss
      simp only [checkDependent] at hm
      split at hm
      · cases hm
      · rw [Option.some.injEq] at hm
        obtain ⟨p, q, hpq⟩ :=
          mem_intercalate_decomp (mem_depErrs hds hd hmiss) "; "
        unfold containsSub
        rw [listInfixB_iff_decomp]
        exact ⟨p, q, by rw [← hm]; exact hpq⟩

/-- A field whose `dependentRequired` tag names the absent property `b`. -/
def f7 : StructField :=
  ⟨"A", .str, [("dependentRequired", "b")], true, false⟩

def d7 : StructDesc := ⟨[f7], [], none, false, none⟩

def cfg7 : Cfg := ⟨"#/", fun t _ => tyName (deref t), [("D", d7)]⟩

/-- The accumulator after the field pass over struct `D`. -/
def acc7 : FAcc :=
  match procFields (SchemaR cfg7 2) (getFieldsTop cfg7 (.strct "D"))
      (tyName (.strct "D")) (methodsOf cfg7 (.strct "D"))
      (getFieldsTop cfg7 (.strct "D"))
      ⟨RState.empty, [], [], [], [], [], false⟩ with
  | .ok a => a
  | _ => ⟨RState.empty, [], [], [], [], [], false⟩

/-- Witness for C7 at a concrete struct whose dependent is missing. -/
theorem C7_dependent_errors_witness :
    (checkDependent acc7.props acc7.depMap = none ↔
      ∀ fld ds, lookupA acc7.depMap fld = some ds →
        ∀ d ∈ ds, (lookupA acc7.props d).isSome = true) ∧
    (checkDependent acc7.props acc7.depMap = none →
      structBranch (SchemaR cfg7 2) cfg7 (.strct "D") (.strct "D")
        RState.empty = finishStruct cfg7 (.strct "D") acc7) ∧
    (∀ m, checkDependent acc7.props acc7.depMap = some m →
      structBranch (SchemaR cfg7 2) cfg7 (.strct "D") (.strct "D")
        RState.empty = .fatal m ∧
      ∀ fld ds d, lookupA acc7.depMap fld = some ds → d ∈ ds →
        lookupA acc7.props d = none →
        containsSub m (depErrMsg fld d) = true) :=
  C7_dependent_errors (SchemaR cfg7 2) cfg7 (.strct "D") (.strct "D")
    RState.empty acc7 rfl

/-! ## Claim C1: termination on cyclic record graphs -/

/-- Structural nesting depth of a type descriptor (pointer, slice, array
and map constructors). -/
def depthTy : Ty → Nat
  | .ptr e => depthTy e + 1
  | .slice e => depthTy e + 1
  | .arr _ e => depthTy e + 1
  | .mp e => depthTy e + 1
  | _ => 0

/-- Largest nesting depth among a descriptor's field and method types. -/
def descDepth (d : StructDesc) : Nat :=
  ((d.sfields.map (fun f => depthTy f.ftype)) ++
    (d.methods.map (fun m => depthTy m.outTy))).foldr max 0

/-- Largest nesting depth over the whole type universe. -/
def maxDepth (cfg : Cfg) : Nat :=
  (cfg.env.map (fun p => descDepth p.2)).foldr max 0

/-- The names the namer assigns to the universe's struct types. -/
def envNames (cfg : Cfg) : List String :=
  cfg.env.map (fun p => cfg.namer (.strct p.1) "")

/-- How many universe names are not registered yet. -/
def unreg (cfg : Cfg) (st : RState) : Nat :=
  ((envNames cfg).filter (fun nm => (lookupA st.schemas nm).isNone)).length

/-- Fuel sufficient for `Schema` to finish from state `st` on type `t`. -/
def fuelBound (cfg : Cfg) (st : RState) (t : Ty) : Nat :=
  unreg cfg st * (maxDepth cfg + 2) + depthTy t + 2

theorem le_foldr_max {x : Nat} : ∀ {l : List Nat}, x ∈ l →
    x ≤ l.foldr max 0 := by
  intro l
  induction l with
  | nil => intro h; cases h
  | cons a as ih =>
    intro h
    rcases List.mem_cons.1 h with rfl | h2
    · exact Nat.le_max_left _ _
    · exact Nat.le_trans (ih h2) (Nat.le_max_right _ _)

theorem length_filter_mono {α : Type} {p q : α → Bool} : ∀ {l : List α},
    (∀ a ∈ l, p a = true → q a = true) →
    (l.filter p).length ≤ (l.filter q).length := by
  intro l
  induction l with
  | nil => intro _; exact Nat.le_refl _
  | cons a as ih =>
    intro h
    have htail := ih (fun b hb => h b (List.mem_cons_of_mem a hb))
    by_cases hpa : p a = true
    · rw [List.filter_cons_of_pos hpa,
        List.filter_cons_of_pos (h a (List.mem_cons_self a as) hpa)]
      exact Nat.succ_le_succ htail
    · rw [List.filter_cons_of_neg (by simpa using hpa)]
      cases hqa : q a with
      | false => rw [List.filter_cons_of_neg (by simp [hqa])]; exact htail
      | true =>
        rw [List.filter_cons_of_pos hqa]
        exact Nat.le_trans htail (Nat.le_succ _)

theorem length_filter_lt {α : Type} {p q : α → Bool} {x : α} :
    ∀ {l : List α}, x ∈ l → (∀ a ∈ l, p a = true → q a = true) →
    p x = false → q x = true →
    (l.filter p).length < (l.filter q).length := by
  intro l
  induction l with
  | nil => intro h; cases h
  | cons a as ih =>
    intro hx hsub hpx hqx
    rcases List.mem_cons.1 hx with rfl | h2
    · rw [List.filter_cons_of_neg (by simp [hpx]),
        List.filter_cons_of_pos hqx]
      exact Nat.lt_succ_of_le (length_filter_mono
        (fun b hb => hsub b (List.mem_cons_of_mem x hb)))
    · have htail := ih h2 (fun b hb => hsub b (List.mem_cons_of_mem a hb))
        hpx hqx
      by_cases hpa : p a = true
      · rw [List.filter_cons_of_pos hpa,
          List.filter_cons_of_pos (hsub a (List.mem_cons_self a as) hpa)]
        exact Nat.succ_lt_succ htail
      · rw [List.filter_cons_of_neg (by simpa using hpa)]
        cases hqa : q a with
        | false =>
          rw [List.filter_cons_of_neg (by simp [hqa])]
          exact htail
        | true =>
          rw [List.filter_cons_of_pos hqa]
          exact Nat.lt_succ_of_lt htail

theorem lookupA_mem {α : Type} : ∀ {l : List (String × α)} {k : String}
    {v : α}, lookupA l k = some v → (k, v) ∈ l := by
  intro l
  induction l with
  | nil => intro k v h; cases h
  | cons a as ih =>
    intro k v h
    simp only [lookupA] at h
    split at h
    · rename_i hk
      cases h
      rw [← hk]
      exact List.mem_cons_self a as
    · exact List.mem_cons_of_mem a (ih h)

theorem depthTy_deref_le : ∀ t : Ty, depthTy (deref t) ≤ depthTy t := by
  intro t
  induction t with
  | ptr e ih =>
    exact Nat.le_trans (by simpa [deref] using ih) (Nat.le_succ _)
  | _ => exact Nat.le_refl _

theorem structFieldsOf_sub {cfg : Cfg} {t : Ty} {f : StructField}
    (h : f ∈ structFieldsOf cfg t) :
    ∃ nm d, lookupA cfg.env nm = some d ∧ f ∈ d.sfields := by
  cases t with
  | strct n =>
    simp only [structFieldsOf, descOf] at h
    cases he : lookupA cfg.env n with
    | some d => rw [he] at h; exact ⟨n, d, he, h⟩
    | none =>
      rw [he] at h
      simp [StructDesc.empty] at h
  | _ => simp [structFieldsOf] at h

theorem getFieldsL_sub (cfg : Cfg) : ∀ (fuel : Nat) (ws vis : List Ty)
    (f : StructField), f ∈ (getFieldsL cfg fuel ws vis).1 →
    ∃ nm d, lookupA cfg.env nm = some d ∧ f ∈ d.sfields := by
  intro fuel
  induction fuel with
  | zero => intro ws vis f h; simp [getFieldsL] at h
  | succ n ih =>
    intro ws vis f h
    cases ws with
    | nil => simp [getFieldsL] at h
    | cons t ts =>
      simp only [getFieldsL] at h
      split at h
      · exact ih ts vis f h
      · split at h
        · exact ih ts vis f h
        · rcases hg1 : getFieldsL cfg n
              (((structFieldsOf cfg t).filter
                (fun f => f.exported && f.anon)).map
                (fun f => deref f.ftype)) (insertTy vis t) with ⟨fs1, vis2⟩
          rw [hg1] at h
          rcases hg2 : getFieldsL cfg n ts vis2 with ⟨fs2, vis3⟩
          rw [hg2] at h
          simp only [List.mem_append] at h
          rcases h with (hdir | hf1) | hf2
          · exact structFieldsOf_sub (List.mem_of_mem_filter hdir)
          · have := ih _ _ f (by rw [hg1]; exact hf1)
            exact this
          · have := ih ts vis2 f (by rw [hg2]; exact hf2)
            exact this

theorem fields_depth_le {cfg : Cfg} {t : Ty} {f : StructField}
    (h : f ∈ getFieldsTop cfg t) : depthTy f.ftype ≤ maxDepth cfg := by
  obtain ⟨nm, d, henv, hf⟩ := getFieldsL_sub cfg _ _ _ _ h
  have h1 : depthTy f.ftype ≤ descDepth d :=
    le_foldr_max (List.mem_append.2 (Or.inl
      (List.mem_map.2 ⟨f, hf, rfl⟩)))
  have h2 : descDepth d ≤ maxDepth cfg :=
    le_foldr_max (List.mem_map.2 ⟨(nm, d), lookupA_mem henv, rfl⟩)
  exact Nat.le_trans h1 h2

theorem methods_depth_le {cfg : Cfg} {oriT : Ty} {m : SMethod}
    (h : m ∈ methodsOf cfg oriT) : depthTy m.outTy ≤ maxDepth cfg := by
  have hmem : ∃ nm d, lookupA cfg.env nm = some d ∧ m ∈ d.methods := by
    unfold methodsOf at h
    split at h
    · rename_i n hdeq
      have hm : m ∈ (descOf cfg n).methods := by
        split at h
        · exact List.mem_of_mem_filter h
        · exact h
      unfold descOf at hm
      cases he : lookupA cfg.env n with
      | some d => rw [he] at hm; exact ⟨n, d, he, hm⟩
      | none =>
        rw [he] at hm
        simp [StructDesc.empty] at hm
    · cases h
  obtain ⟨nm, d, henv, hm⟩ := hmem
  have h1 : depthTy m.outTy ≤ descDepth d :=
    le_foldr_max (List.mem_append.2 (Or.inr
      (List.mem_map.2 ⟨m, hm, rfl⟩)))
  have h2 : descDepth d ≤ maxDepth cfg :=
    le_foldr_max (List.mem_map.2 ⟨(nm, d), lookupA_mem henv, rfl⟩)
  exact Nat.le_trans h1 h2

theorem unreg_mono {cfg : Cfg} {st st' : RState} (h : Mono st st') :
    unreg cfg st' ≤ unreg cfg st :=
  length_filter_mono (fun nm _ hnone => by
    cases hl : lookupA st.schemas nm with
    | none => simp [Option.isNone, hl]
    | some v =>
      have := h.2.2 nm (by simp [hl])
      cases hl2 : lookupA st'.schemas nm with
      | none => rw [hl2] at this; cases this
      | some w => rw [hl2] at hnone; cases hnone)

theorem unreg_regPlaceholder_lt {cfg : Cfg} {st : RState} {name : String}
    {t : Ty} (hfresh : lookupA st.schemas name = none)
    (hname : name ∈ envNames cfg) :
    unreg cfg (regPlaceholder st name t) < unreg cfg st := by
  refine length_filter_lt hname ?_ ?_ ?_
  · intro a _ ha
    cases hl : lookupA st.schemas a with
    | none => rfl
    | some v =>
      simp only [regPlaceholder, lookupA_insertA] at ha
      split at ha
      · cases ha
      · rw [hl] at ha; cases ha
  · simp [regPlaceholder, lookupA_insertA]
  · simp [hfresh]

theorem getFieldsTop_unknown {cfg : Cfg} {nm : String}
    (henv : lookupA cfg.env nm = none) :
    getFieldsTop cfg (.strct nm) = [] := by
  obtain ⟨m, hm⟩ := Nat.exists_eq_add_of_lt (getFieldsFuel_pos cfg)
  unfold getFieldsTop
  rw [show getFieldsFuel cfg = m + 1 by omega]
  have hsf : structFieldsOf cfg (.strct nm) = [] := by
    simp [structFieldsOf, descOf, henv, StructDesc.empty]
  simp [getFieldsL, hsf, kindStruct, getFieldsL_nil]

theorem methodsOf_unknown {cfg : Cfg} {nm : String} {oriT : Ty}
    (hd : deref oriT = .strct nm) (henv : lookupA cfg.env nm = none) :
    methodsOf cfg oriT = [] := by
  unfold methodsOf
  rw [hd]
  have hm : (descOf cfg nm).methods = [] := by
    simp [descOf, henv, StructDesc.empty]
  simp [hm, ite_self]

theorem fieldNameReq_ne_fuelOut (f : StructField) :
    fieldNameReq f ≠ .fuelOut := by
  unfold fieldNameReq
  split
  · split <;> simp
  · split <;> simp

theorem boolTagF_ne_fuelOut (f : StructField) (tag : String) :
    boolTagF f tag ≠ .fuelOut := by
  simp only [boolTagF]
  split
  · split
    · simp
    · split <;> simp
  · simp

theorem reqOverride_ne_fuelOut (f : StructField) (b : Bool) :
    reqOverride f b ≠ .fuelOut := by
  unfold reqOverride
  split
  · exact boolTagF_ne_fuelOut f "required"
  · simp

theorem markerAP_ne_fuelOut (mf : StructField) :
    markerAP mf ≠ .fuelOut := by
  unfold markerAP
  split
  · exact boolTagF_ne_fuelOut mf "additionalProperties"
  · simp

theorem markerNl_ne_fuelOut (mf : StructField) :
    markerNl mf ≠ .fuelOut := by
  unfold markerNl
  split
  · exact boolTagF_ne_fuelOut mf "nullable"
  · simp

theorem apOverride_ne_fuelOut (cfg : Cfg) (t : Ty) (b : Bool) :
    apOverride cfg t b ≠ .fuelOut := by
  unfold apOverride
  split
  · simp
  · split
    · simp
    · rename_i mf hmf
      cases hap : markerAP mf with
      | fuelOut => exact absurd hap (markerAP_ne_fuelOut mf)
      | fatal m => simp
      | ok apv =>
        cases hnl : markerNl mf with
        | fuelOut => exact absurd hnl (markerNl_ne_fuelOut mf)
        | fatal m => simp
        | ok nlv => simp

theorem finishStruct_ne_fuelOut (cfg : Cfg) (t : Ty) (acc : FAcc) :
    finishStruct cfg t acc ≠ .fuelOut := by
  unfold finishStruct
  cases hap : apOverride cfg t acc.ignoreAP with
  | fuelOut => exact absurd hap (apOverride_ne_fuelOut cfg t acc.ignoreAP)
  | fatal m => simp
  | ok p => obtain ⟨a, b⟩ := p; simp

theorem cacheHit_ne_fuelOut (cfg : Cfg) (st : RState) (t : Ty)
    (name : String) (aR : Bool) (s : JSchema) :
    cacheHit cfg st t name aR s ≠ .fuelOut := by
  unfold cacheHit
  split
  · simp
  · split <;> simp

theorem finishReg_ne_fuelOut (cfg : Cfg) (g aR : Bool) (name : String)
    (sOpt : Option JSchema) (st2 : RState) :
    finishReg cfg g aR name sOpt st2 ≠ .fuelOut := by
  unfold finishReg
  split <;> simp

theorem procOneof_term {sch : SchFn} {cfg : Cfg} {k M : Nat}
    (hs : SchMono sch)
    (hterm : ∀ st2 t2 hint2, st2.aliases = [] →
      unreg cfg st2 * (M + 2) + depthTy t2 + 2 ≤ k →
      sch st2 t2 true hint2 ≠ .fuelOut)
    (allFields : List StructField) (tname : String) :
    ∀ (ms : List SMethod) (acc : FAcc) (U : Nat),
      (∀ m ∈ ms, depthTy m.outTy ≤ M) →
      acc.st.aliases = [] → unreg cfg acc.st ≤ U →
      U * (M + 2) + M + 2 ≤ k →
      procOneof sch allFields tname ms acc ≠ .fuelOut := by
  intro ms
  induction ms with
  | nil =>
    intro acc U _ _ _ _
    simp [procOneof]
  | cons m ms ih =>
    intro acc U hms hal hu hk
    have htail : ∀ x ∈ ms, depthTy x.outTy ≤ M :=
      fun x hx => hms x (List.mem_cons_of_mem m hx)
    simp only [procOneof]
    split
    · exact ih acc U htail hal hu hk
    · split
      · exact ih acc U htail hal hu hk
      · split
        · exact ih acc U htail hal hu hk
        · cases hc : sch acc.st m.outTy true
              (tname ++ tyName m.outTy ++ "Struct") with
          | fatal msg => simp
          | fuelOut =>
            have hb : unreg cfg acc.st * (M + 2) + depthTy m.outTy + 2 ≤
                k := by
              have h1 : unreg cfg acc.st * (M + 2) ≤ U * (M + 2) :=
                Nat.mul_le_mul_right _ hu
              have h2 : depthTy m.outTy ≤ M := hms m (List.mem_cons_self m ms)
              omega
            exact absurd hc (hterm _ _ _ hal hb)
          | ok p =>
            obtain ⟨fsOpt, st2⟩ := p
            have hmono : Mono acc.st st2 := hs _ _ _ _ _ _ hc
            have hal2 : st2.aliases = [] := hmono.2.1.trans hal
            have hu2 : unreg cfg st2 ≤ U :=
              Nat.le_trans (unreg_mono hmono) hu
            cases fsOpt with
            | none => exact ih _ U htail hal2 hu2 hk
            | some fs => exact ih _ U htail hal2 hu2 hk

theorem procEmit_term {sch : SchFn} {cfg : Cfg} {k M : Nat}
    (hterm : ∀ st2 t2 hint2, st2.aliases = [] →
      unreg cfg st2 * (M + 2) + depthTy t2 + 2 ≤ k →
      sch st2 t2 true hint2 ≠ .fuelOut)
    (f : StructField) (tname name : String) (req1 : Bool) (acc2 : FAcc)
    (U : Nat) (hdepth : depthTy f.ftype ≤ M)
    (hal : acc2.st.aliases = []) (hu : unreg cfg acc2.st ≤ U)
    (hk : U * (M + 2) + M + 2 ≤ k) :
    procEmit sch f tname name req1 acc2 ≠ .fuelOut := by
  unfold procEmit humaFieldSchema
  cases hc : sch acc2.st f.ftype true (tname ++ f.fname ++ "Struct") with
  | fatal m => simp
  | fuelOut =>
    have hb : unreg cfg acc2.st * (M + 2) + depthTy f.ftype + 2 ≤ k := by
      have h1 : unreg cfg acc2.st * (M + 2) ≤ U * (M + 2) :=
        Nat.mul_le_mul_right _ hu
      omega
    exact absurd hc (hterm _ _ _ hal hb)
  | ok p =>
    obtain ⟨fsOpt, st2⟩ := p
    cases fsOpt <;> simp

theorem procNamed_term {sch : SchFn} {cfg : Cfg} {k M : Nat}
    (hterm : ∀ st2 t2 hint2, st2.aliases = [] →
      unreg cfg st2 * (M + 2) + depthTy t2 + 2 ≤ k →
      sch st2 t2 true hint2 ≠ .fuelOut)
    (f : StructField) (tname : String) (acc1 : FAcc) (U : Nat)
    (hdepth : depthTy f.ftype ≤ M)
    (hal : acc1.st.aliases = []) (hu : unreg cfg acc1.st ≤ U)
    (hk : U * (M + 2) + M + 2 ≤ k) :
    procNamed sch f tname acc1 ≠ .fuelOut := by
  unfold procNamed
  cases hn : fieldNameReq f with
  | fuelOut => exact absurd hn (fieldNameReq_ne_fuelOut f)
  | fatal m => simp
  | ok p =>
    obtain ⟨name, req0⟩ := p
    dsimp only []
    split
    · simp
    · cases hro : reqOverride f req0 with
      | fuelOut => exact absurd hro (reqOverride_ne_fuelOut f req0)
      | fatal m => simp
      | ok req1 =>
        dsimp only []
        cases hh : boolTagF f "hidden" with
        | fuelOut => exact absurd hh (boolTagF_ne_fuelOut f "hidden")
        | fatal m => simp
        | ok hid =>
          dsimp only []
          split
          · simp
          · exact procEmit_term hterm f tname name req1
              (recordDep f name acc1) U hdepth
              (by rw [recordDep_st]; exact hal)
              (by rw [recordDep_st]; exact hu) hk

theorem procField_term {sch : SchFn} {cfg : Cfg} {k M : Nat}
    (hs : SchMono sch)
    (hterm : ∀ st2 t2 hint2, st2.aliases = [] →
      unreg cfg st2 * (M + 2) + depthTy t2 + 2 ≤ k →
      sch st2 t2 true hint2 ≠ .fuelOut)
    (allFields : List StructField) (tname : String) (msOri : List SMethod)
    (f : StructField) (acc : FAcc) (U : Nat)
    (hdepth : depthTy f.ftype ≤ M)
    (hms : ∀ m ∈ msOri, depthTy m.outTy ≤ M)
    (hal : acc.st.aliases = []) (hu : unreg cfg acc.st ≤ U)
    (hk : U * (M + 2) + M + 2 ≤ k) :
    procField sch allFields tname msOri f acc ≠ .fuelOut := by
  unfold procField
  split
  · simp
  · split
    · exact procOneof_term hs hterm allFields tname msOri acc U hms hal
        hu hk
    · exact procNamed_term hterm f tname (skipAcc f acc) U hdepth hal hu hk

theorem procFields_term {sch : SchFn} {cfg : Cfg} {k M : Nat}
    (hs : SchMono sch)
    (hterm : ∀ st2 t2 hint2, st2.aliases = [] →
      unreg cfg st2 * (M + 2) + depthTy t2 + 2 ≤ k →
      sch st2 t2 true hint2 ≠ .fuelOut)
    (allFields : List StructField) (tname : String)
    (msOri : List SMethod) :
    ∀ (fs : List StructField) (acc : FAcc) (U : Nat),
      (∀ f ∈ fs, depthTy f.ftype ≤ M) →
      (∀ m ∈ msOri, depthTy m.outTy ≤ M) →
      acc.st.aliases = [] → unreg cfg acc.st ≤ U →
      U * (M + 2) + M + 2 ≤ k →
      procFields sch allFields tname msOri fs acc ≠ .fuelOut := by
  intro fs
  induction fs with
  | nil =>
    intro acc U _ _ _ _ _
    simp [procFields]
  | cons f fs ih =>
    intro acc U hfs hms hal hu hk
    simp only [procFields]
    cases hp : procField sch allFields tname msOri f acc with
    | fatal m => simp
    | fuelOut =>
      exact absurd hp (procField_term hs hterm allFields tname msOri f acc
        U (hfs f (List.mem_cons_self f fs)) hms hal hu hk)
    | ok acc2 =>
      have hmono := procField_mono hs allFields tname msOri f acc acc2 hp
      exact ih acc2 U (fun x hx => hfs x (List.mem_cons_of_mem f hx)) hms
        (hmono.2.1.trans hal) (Nat.le_trans (unreg_mono hmono) hu) hk

theorem structBranch_term {sch : SchFn} {cfg : Cfg} {k M : Nat}
    (hs : SchMono sch)
    (hterm : ∀ st2 t2 hint2, st2.aliases = [] →
      unreg cfg st2 * (M + 2) + depthTy t2 + 2 ≤ k →
      sch st2 t2 true hint2 ≠ .fuelOut)
    (oriT t : Ty) (st : RState) (U : Nat)
    (hfs : ∀ f ∈ getFieldsTop cfg t, depthTy f.ftype ≤ M)
    (hms : ∀ m ∈ methodsOf cfg oriT, depthTy m.outTy ≤ M)
    (hal : st.aliases = []) (hu : unreg cfg st ≤ U)
    (hk : U * (M + 2) + M + 2 ≤ k) :
    structBranch sch cfg oriT t st ≠ .fuelOut := by
  unfold structBranch
  cases hp : procFields sch (getFieldsTop cfg t) (tyName t)
      (methodsOf cfg oriT) (getFieldsTop cfg t)
      ⟨st, [], [], [], [], [], false⟩ with
  | fatal m => simp
  | fuelOut =>
    exact absurd hp (procFields_term hs hterm (getFieldsTop cfg t)
      (tyName t) (methodsOf cfg oriT) (getFieldsTop cfg t)
      ⟨st, [], [], [], [], [], false⟩ U hfs hms hal hu hk)
  | ok acc =>
    dsimp only []
    cases hcd : checkDependent acc.props acc.depMap with
    | some m => simp [hcd]
    | none =>
      simp only [hcd]
      exact finishStruct_ne_fuelOut cfg t acc

theorem deref_ne_ptr : ∀ (t e : Ty), deref t ≠ .ptr e := by
  intro t
  induction t with
  | ptr e2 ih => intro e; simpa [deref] using ih e
  | _ => intro e; simp [deref]

theorem walker_term {sch : SchFn} {cfg : Cfg} {k : Nat}
    (hs : SchMono sch)
    (hterm : ∀ st2 t2 hint2, st2.aliases = [] →
      unreg cfg st2 * (maxDepth cfg + 2) + depthTy t2 + 2 ≤ k →
      sch st2 t2 true hint2 ≠ .fuelOut)
    (t : Ty) (st1 : RState) (hal1 : st1.aliases = [])
    (hb1 : unreg cfg st1 * (maxDepth cfg + 2) + depthTy (deref t) + 1 ≤ k)
    (hb2 : ∀ nm d, deref t = .strct nm →
      providerOf cfg (.strct nm) = none →
      textUnmOf cfg (.strct nm) = false →
      lookupA cfg.env nm = some d →
      unreg cfg st1 * (maxDepth cfg + 2) + maxDepth cfg + 2 ≤ k) :
    SchemaFromTypeF sch cfg (origOf t) st1 ≠ .fuelOut := by
  have hcore : schemaFromTypeF sch cfg (origOf t) st1 ≠ .fuelOut := by
    unfold schemaFromTypeF schemaCore
    rw [deref_origOf]
    cases hp : providerOf cfg (deref t) with
    | some ps => simp
    | none =>
      dsimp only []
      cases hdt : deref t with
      | ptr e => exact absurd hdt (deref_ne_ptr t e)
      | timeT => simp
      | urlT => simp
      | ipT => simp
      | ipAddrT => simp
      | rawMessageT => simp
      | bool => simp [textUnmOf, kindSwitch]
      | i => simp [textUnmOf, kindSwitch]
      | i8 => simp [textUnmOf, kindSwitch]
      | i16 => simp [textUnmOf, kindSwitch]
      | i32 => simp [textUnmOf, kindSwitch]
      | i64 => simp [textUnmOf, kindSwitch]
      | u => simp [textUnmOf, kindSwitch]
      | u8 => simp [textUnmOf, kindSwitch]
      | u16 => simp [textUnmOf, kindSwitch]
      | u32 => simp [textUnmOf, kindSwitch]
      | u64 => simp [textUnmOf, kindSwitch]
      | f32 => simp [textUnmOf, kindSwitch]
      | f64 => simp [textUnmOf, kindSwitch]
      | str => simp [textUnmOf, kindSwitch]
      | iface => simp [textUnmOf, kindSwitch]
      | unsupported => simp [textUnmOf, kindSwitch]
      | slice e =>
        rw [hdt] at hb1
        simp only [textUnmOf, Bool.false_eq_true, if_false]
        have hks : kindSwitch sch cfg (origOf t) (.slice e) st1 ≠
            .fuelOut := by
          simp only [kindSwitch]
          split
          · simp
          · cases hc2 : sch st1 e true (tyName (.slice e) ++ "Item") with
            | fatal m => simp
            | fuelOut =>
              exact absurd hc2 (hterm _ _ _ hal1 (by
                simp only [depthTy] at hb1
                omega))
            | ok p => obtain ⟨es, st2⟩ := p; simp
        cases hk : kindSwitch sch cfg (origOf t) (.slice e) st1 with
        | fatal m => simp
        | fuelOut => exact absurd hk hks
        | ok p => obtain ⟨sOpt, st2⟩ := p; simp
      | arr n e =>
        rw [hdt] at hb1
        simp only [textUnmOf, Bool.false_eq_true, if_false]
        have hks : kindSwitch sch cfg (origOf t) (.arr n e) st1 ≠
            .fuelOut := by
          simp only [kindSwitch]
          split
          · simp
          · cases hc2 : sch st1 e true (tyName (.arr n e) ++ "Item") with
            | fatal m => simp
            | fuelOut =>
              exact absurd hc2 (hterm _ _ _ hal1 (by
                simp only [depthTy] at hb1
                omega))
            | ok p => obtain ⟨es, st2⟩ := p; simp
        cases hk : kindSwitch sch cfg (origOf t) (.arr n e) st1 with
        | fatal m => simp
        | fuelOut => exact absurd hk hks
        | ok p => obtain ⟨sOpt, st2⟩ := p; simp
      | mp e =>
        rw [hdt] at hb1
        simp only [textUnmOf, Bool.false_eq_true, if_false]
        have hks : kindSwitch sch cfg (origOf t) (.mp e) st1 ≠
            .fuelOut := by
          simp only [kindSwitch]
          cases hc2 : sch st1 e true (tyName (.mp e) ++ "Value") with
          | fatal m => simp
          | fuelOut =>
            exact absurd hc2 (hterm _ _ _ hal1 (by
              simp only [depthTy] at hb1
              omega))
          | ok p => obtain ⟨es, st2⟩ := p; simp
        cases hk : kindSwitch sch cfg (origOf t) (.mp e) st1 with
        | fatal m => simp
        | fuelOut => exact absurd hk hks
        | ok p => obtain ⟨sOpt, st2⟩ := p; simp
      | strct nm =>
        cases htx : textUnmOf cfg (.strct nm) with
        | true => simp [htx]
        | false =>
          simp only [htx, Bool.false_eq_true, if_false]
          have hks : kindSwitch sch cfg (origOf t) (.strct nm) st1 ≠
              .fuelOut := by
            simp only [kindSwitch]
            cases henv : lookupA cfg.env nm with
            | none =>
              have hgf := getFieldsTop_unknown henv
              have hmm := methodsOf_unknown
                (by rw [deref_origOf, hdt]) henv
              unfold structBranch
              rw [hgf, hmm]
              simp only [procFields]
              simp only [checkDependent, depErrs, sortStrs, List.map_nil,
                List.flatten_nil, if_pos rfl]
              cases hfs2 : finishStruct cfg (.strct nm)
                  ⟨st1, [], [], [], [], [], false⟩ with
              | fuelOut =>
                exact absurd hfs2
                  (finishStruct_ne_fuelOut cfg (.strct nm) _)
              | fatal m => simp
              | ok p => simp
            | some d =>
              exact structBranch_term hs hterm (origOf t) (.strct nm) st1
                (unreg cfg st1) (fun f hf => fields_depth_le hf)
                (fun m hm => methods_depth_le hm)
                hal1 (Nat.le_refl _)
                (hb2 nm d hdt (by rw [hdt] at hp; exact hp) htx henv)
          cases hk : kindSwitch sch cfg (origOf t) (.strct nm) st1 with
          | fatal m => simp
          | fuelOut => exact absurd hk hks
          | ok p => obtain ⟨sOpt, st2⟩ := p; simp
  unfold SchemaFromTypeF
  cases hc : schemaFromTypeF sch cfg (origOf t) st1 with
  | fatal m => simp
  | fuelOut => exact absurd hc hcore
  | ok p =>
    obtain ⟨sOpt, st2⟩ := p
    cases htr : transformOf cfg (deref (origOf t)) <;> simp [htr]

/-- Fuel sufficiency: when the namer names a type by its dereferenced
form and no aliases are installed, `fuelBound` recursion depth always
suffices — `Schema` never runs out of fuel, on cyclic record graphs
included, because each fresh ref-eligible expansion registers one more
universe name before walking and nested calls on registered names return
without recursion. -/
theorem SchemaR_term (cfg : Cfg)
    (hnamer : ∀ t1 t2 h1 h2, deref t1 = deref t2 →
      cfg.namer t1 h1 = cfg.namer t2 h2) :
    ∀ (n : Nat) (st : RState) (t : Ty) (aR : Bool) (hint : String),
      st.aliases = [] → fuelBound cfg st t ≤ n →
      SchemaR cfg n st t aR hint ≠ .fuelOut := by
  intro n
  induction n using Nat.strong_induction_on with
  | _ n IH =>
    intro st t aR hint hal hb
    cases n with
    | zero =>
      exfalso
      unfold fuelBound at hb
      omega
    | succ k =>
      have hterm : ∀ st2 t2 hint2, st2.aliases = [] →
          unreg cfg st2 * (maxDepth cfg + 2) + depthTy t2 + 2 ≤ k →
          SchemaR cfg k st2 t2 true hint2 ≠ .fuelOut := by
        intro st2 t2 hint2 hal2 hb2
        exact IH k (Nat.lt_succ_self k) st2 t2 true hint2 hal2 hb2
      unfold fuelBound at hb
      simp only [SchemaR]
      unfold SchemaBody
      rw [show lookupTy st.aliases (deref t) = none by rw [hal]; rfl]
      unfold SchemaCore
      cases hg : getsRefOf cfg (deref t) with
      | false =>
        simp only [hg, Bool.false_eq_true, if_false]
        cases hw : SchemaFromTypeF (SchemaR cfg k) cfg (origOf t) st with
        | fatal m => simp
        | fuelOut =>
          refine absurd hw (walker_term (SchemaR_mono cfg k) hterm t st hal
            ?_ ?_)
          · have hdd := depthTy_deref_le t
            omega
          · intro nm d hdnm hpn htf henv
            exfalso
            rw [hdnm] at hg
            simp [getsRefOf, kindStruct, hpn, htf] at hg
        | ok p =>
          obtain ⟨sOpt, st2⟩ := p
          cases hf : finishReg cfg false aR
              (nameOf cfg t hint) sOpt st2 with
          | fuelOut => exact absurd hf (finishReg_ne_fuelOut _ _ _ _ _ _)
          | fatal m => simp [hf]
          | ok q => simp [hf]
      | true =>
        simp only [hg, if_true]
        cases hcache : lookupA st.schemas (nameOf cfg t hint) with
        | some w =>
          exact cacheHit_ne_fuelOut cfg st (deref t) (nameOf cfg t hint)
            aR w
        | none =>
          cases hw : SchemaFromTypeF (SchemaR cfg k) cfg (origOf t)
              (regPlaceholder st (nameOf cfg t hint) (deref t)) with
          | fatal m => simp
          | fuelOut =>
            have hmono := mono_regPlaceholder st (nameOf cfg t hint)
              (deref t)
            have hu1 : unreg cfg
                (regPlaceholder st (nameOf cfg t hint) (deref t)) ≤
                unreg cfg st := unreg_mono hmono
            refine absurd hw (walker_term (SchemaR_mono cfg k) hterm t _
              ?_ ?_ ?_)
            · exact hmono.2.1.trans hal
            · have hdd := depthTy_deref_le t
              have h2 := Nat.mul_le_mul_right (maxDepth cfg + 2) hu1
              omega
            · intro nm d hdnm hpn htf henv
              have hnmem : nameOf cfg t hint ∈ envNames cfg := by
                have : nameOf cfg t hint = cfg.namer (.strct nm) "" := by
                  unfold nameOf
                  exact hnamer _ _ _ _ (by rw [deref_origOf, hdnm]; rfl)
                rw [this]
                exact List.mem_map.2 ⟨(nm, d), lookupA_mem henv, rfl⟩
              have hlt := unreg_regPlaceholder_lt (t := deref t) hcache
                hnmem
              have h1 : unreg cfg
                  (regPlaceholder st (nameOf cfg t hint) (deref t)) + 1 ≤
                  unreg cfg st := hlt
              have h2 := Nat.mul_le_mul_right (maxDepth cfg + 2) h1
              have h3 : (unreg cfg
                  (regPlaceholder st (nameOf cfg t hint) (deref t)) + 1) *
                  (maxDepth cfg + 2) =
                  unreg cfg
                    (regPlaceholder st (nameOf cfg t hint) (deref t)) *
                    (maxDepth cfg + 2) + (maxDepth cfg + 2) := by ring
              omega
          | ok p =>
            obtain ⟨sOpt, st2⟩ := p
            cases hf : finishReg cfg true aR
                (nameOf cfg t hint) sOpt st2 with
            | fuelOut => exact absurd hf (finishReg_ne_fuelOut _ _ _ _ _ _)
            | fatal m => simp [hf]
            | ok q => simp [hf]

/-- C1: (i) `Schema` terminates on every type — in particular on records
that reach themselves through a chain of member types — once the fuel
reaches `fuelBound`; (ii) because the placeholder entry is inserted under
the record's name BEFORE the walker runs, any nested call on a member
chain `tau` that dereferences back to the record returns the reference
node `prefix ++ name` (and leaves the state untouched) instead of
expanding inline. -/
theorem C1_cyclic_ref_termination (cfg : Cfg)
    (hnamer : ∀ t1 t2 h1 h2, deref t1 = deref t2 →
      cfg.namer t1 h1 = cfg.namer t2 h2) :
    (∀ n st t aR hint, st.aliases = [] → fuelBound cfg st t ≤ n →
      SchemaR cfg n st t aR hint ≠ .fuelOut) ∧
    (∀ n st t0 tau hint hint2, st.aliases = [] →
      getsRefOf cfg (deref t0) = true → deref tau = deref t0 →
      SchemaR cfg (n + 1)
          (regPlaceholder st (nameOf cfg t0 hint) (deref t0)) tau true
          hint2 =
        .ok (some (JSchema.refNode (cfg.pfx ++ nameOf cfg t0 hint)),
          regPlaceholder st (nameOf cfg t0 hint) (deref t0))) := by
  constructor
  · exact SchemaR_term cfg hnamer
  · intro n st t0 tau hint hint2 hal hg htau
    have hname : nameOf cfg tau hint2 = nameOf cfg t0 hint := by
      unfold nameOf
      exact hnamer _ _ _ _ (by rw [deref_origOf, deref_origOf, htau])
    have halx : lookupTy
        (regPlaceholder st (nameOf cfg t0 hint) (deref t0)).aliases
        (deref tau) = none := by
      rw [show (regPlaceholder st (nameOf cfg t0 hint)
        (deref t0)).aliases = st.aliases from rfl, hal]
      rfl
    have hgx : getsRefOf cfg (deref tau) = true := by rw [htau]; exact hg
    have hlook : lookupA
        (regPlaceholder st (nameOf cfg t0 hint) (deref t0)).schemas
        (nameOf cfg tau hint2) = some JSchema.empty := by
      rw [hname]
      simp [regPlaceholder, lookupA_insertA]
    have hseen : deref tau ∈
        (regPlaceholder st (nameOf cfg t0 hint) (deref t0)).seen := by
      rw [htau]
      exact mem_insertTy_self _ _
    simp only [SchemaR, SchemaBody, halx, SchemaCore, hgx, if_true, hlook,
      cacheHit]
    simp [hseen, hname]

/-- The self-referential record `type Node struct { Next *Node }`. -/
def fN : StructField :=
  ⟨"Next", .ptr (.strct "Node"), [("json", "next")], true, false⟩

def cfgN : Cfg :=
  ⟨"#/", fun t _ => tyName (deref t),
    [("Node", ⟨[fN], [], none, false, none⟩)]⟩

/-- Witness for C1 at the concrete cyclic record `Node`. -/
theorem C1_cyclic_ref_termination_witness :
    SchemaR cfgN (fuelBound cfgN RState.empty (.strct "Node"))
      RState.empty (.strct "Node") false "h" ≠ .fuelOut ∧
    SchemaR cfgN (0 + 1)
        (regPlaceholder RState.empty (nameOf cfgN (.strct "Node") "h")
          (deref (.strct "Node"))) (.ptr (.strct "Node")) true "h2" =
      .ok (some (JSchema.refNode
          (cfgN.pfx ++ nameOf cfgN (.strct "Node") "h")),
        regPlaceholder RState.empty (nameOf cfgN (.strct "Node") "h")
          (deref (.strct "Node"))) := by
  have h := C1_cyclic_ref_termination cfgN
    (fun t1 t2 h1 h2 hd => congrArg tyName hd)
  exact ⟨h.1 _ RState.empty (.strct "Node") false "h" rfl (Nat.le_refl _),
    h.2 0 RState.empty (.strct "Node") (.ptr (.strct "Node")) "h" "h2"
      rfl rfl rfl⟩

end HumaProto
